import Mathlib

/-!
Verification of the z3pr palette-randomizer color engine.

The development shallowly embeds the Python sources:

* `maseya/z3pr/math_helper.py` : `clamp`;
* `maseya/z3pr/maseya_blend.py` : `maseya_blend`;
* `maseya/z3pr/palette_editor.py` : `PaletteEditor` (decode, blend, write back);
* `maseya/z3pr/palette_randomizer.py` : `randomize` and its mode table.

Machine floats are idealized as exact field elements: definitions are generic
over a linear ordered field `K` with a floor, instantiated at `ℚ` (executable)
or at `ℝ` (for the blend, whose source calls `math.sqrt`).

The modules `color_f.py` (the `ColorF` HCY color model) and `snes_color.py`
(the `SnesColor` packed 15-bit color) are imported by the sources above but are
not part of the source tree; their operations are modelled from the
specification, as marked in the individual doc comments.
-/

variable {K : Type} [LinearOrderedField K] [FloorRing K]

/-- Translation of `math_helper.clamp` with the default comparison: return
`min_bound` when `value` is below it, `max_bound` when above it, else `value`. -/
def clamp {α : Type} [LinearOrder α] (value min_bound max_bound : α) : α :=
  if value < min_bound then min_bound
  else if max_bound < value then max_bound
  else value

/-- Python float modulo: `a % n = a - n * floor(a / n)`, giving a result in
`[0, n)` for positive `n`. Used to embed the `%` in the hue computation. -/
def pymod (a n : K) : K := a - n * ⌊a / n⌋

/-- Python `str.lower()` restricted to the ASCII mode names the table uses,
modelled as a character-wise lowercase map. -/
def lowerStr (s : String) : String := ⟨s.data.map Char.toLower⟩

/-- Modelled from the spec: the `ColorF` record of `color_f.py` (absent from
the source tree), three real channels conceptually in `[0,1]`. -/
@[ext]
structure ColorF (K : Type) where
  red : K
  green : K
  blue : K
deriving DecidableEq

/-- Modelled from the spec: largest channel of a `ColorF`. -/
def ColorF.cmax (c : ColorF K) : K := max c.red (max c.green c.blue)

/-- Modelled from the spec: smallest channel of a `ColorF`. -/
def ColorF.cmin (c : ColorF K) : K := min c.red (min c.green c.blue)

/-- Modelled from the spec: `chroma`, the colorfulness magnitude of the HCY
model, `0` exactly for neutral gray; the hexagonal-projection chroma
`max - min`. -/
def ColorF.chroma (c : ColorF K) : K := c.cmax - c.cmin

/-- Modelled from the spec: `luma`, the perceptual brightness of the HCY model
(`0` = black, `1` = white), the Rec. 601 weighted sum of the channels. -/
def ColorF.luma (c : ColorF K) : K :=
  0.299 * c.red + 0.587 * c.green + 0.114 * c.blue

/-- Modelled from the spec: `hue`, the position on the color wheel in turn
units, derived by the standard hexagonal projection; `0` by convention for the
achromatic colors. Adding one full turn returns to the same hue. -/
def ColorF.hue (c : ColorF K) : K :=
  if c.chroma = 0 then 0
  else if c.cmax = c.red then pymod ((c.green - c.blue) / c.chroma) 6 / 6
  else if c.cmax = c.green then ((c.blue - c.red) / c.chroma + 2) / 6
  else ((c.red - c.green) / c.chroma + 4) / 6

/-- Modelled from the spec: the base RGB point of the HCY hexagon for a given
hue and chroma (luma still zeroed out). The hue is consumed cyclically
(wrapped into one turn) and scaled to the six sextants. -/
def ColorF.hcyBase (hue chroma : K) : ColorF K :=
  let h6 : K := pymod hue 1 * 6
  let x : K := chroma * (1 - |pymod h6 2 - 1|)
  if h6 < 1 then ⟨chroma, x, 0⟩
  else if h6 < 2 then ⟨x, chroma, 0⟩
  else if h6 < 3 then ⟨0, chroma, x⟩
  else if h6 < 4 then ⟨0, x, chroma⟩
  else if h6 < 5 then ⟨x, 0, chroma⟩
  else ⟨chroma, 0, x⟩

/-- Modelled from the spec: `ColorF.from_hcy`. Chroma and luma are clamped to
`[0,1]`, the base point for the hue/chroma pair is computed, then every channel
is raised by the luma deficit and the result is clamped channel-wise to
`[0,1]` (the constructors produce a normalized instance). -/
def ColorF.from_hcy (hue chroma luma : K) : ColorF K :=
  let c : K := clamp chroma 0 1
  let y : K := clamp luma 0 1
  let base : ColorF K := ColorF.hcyBase hue c
  let m : K := y - base.luma
  ⟨clamp (base.red + m) 0 1, clamp (base.green + m) 0 1, clamp (base.blue + m) 0 1⟩

/-- Modelled from the spec: `grayscale` forces chroma to `0`, keeping hue and
luma. -/
def ColorF.grayscale (c : ColorF K) : ColorF K := ColorF.from_hcy c.hue 0 c.luma

/-- Modelled from the spec: `inverse` is the photographic negative,
`1 - channel` per channel. -/
def ColorF.inverse (c : ColorF K) : ColorF K := ⟨1 - c.red, 1 - c.green, 1 - c.blue⟩

/-- Modelled from the spec: `hue_blend a b` combines the chroma and luma of `a`
with the hue of `b`. -/
def ColorF.hue_blend (a b : ColorF K) : ColorF K := ColorF.from_hcy b.hue a.chroma a.luma

/-- Modelled from the spec: `luma_blend a b` combines the hue and chroma of `a`
with the luma of `b`. -/
def ColorF.luma_blend (a b : ColorF K) : ColorF K := ColorF.from_hcy a.hue a.chroma b.luma

/-- Modelled from the spec: the `SnesColor` record of `snes_color.py` (absent
from the source tree), one packed 15-bit hardware color word. -/
structure SnesColor where
  value : ℕ
deriving DecidableEq

/-- Modelled from the spec: red channel, bits 0 to 4 of the packed word. -/
def SnesColor.red (c : SnesColor) : ℕ := c.value % 32

/-- Modelled from the spec: green channel, bits 5 to 9 of the packed word. -/
def SnesColor.green (c : SnesColor) : ℕ := c.value / 32 % 32

/-- Modelled from the spec: blue channel, bits 10 to 14 of the packed word. -/
def SnesColor.blue (c : SnesColor) : ℕ := c.value / 1024 % 32

/-- Modelled from the spec: low byte of the little-endian packed word. -/
def SnesColor.low (c : SnesColor) : ℕ := c.value % 256

/-- Modelled from the spec: high byte of the little-endian packed word. -/
def SnesColor.high (c : SnesColor) : ℕ := c.value / 256 % 256

/-- Modelled from the spec: pack three 5-bit channels into one color word
(each channel masked to its 5 bits). -/
def SnesColor.from_rgb (r g b : ℕ) : SnesColor :=
  ⟨r % 32 + 32 * (g % 32) + 1024 * (b % 32)⟩

/-- Modelled from the spec: rebuild the packed word from the two bytes of the
raw encoding; the first argument is the byte stored at the lower address (the
low byte of the little-endian word), matching the read in
`PaletteEditor.__init__` against the write in `PaletteEditor.write_to_rom`. -/
def SnesColor.from_high_and_low (at_offset at_offset_1 : ℕ) : SnesColor :=
  ⟨at_offset % 256 + 256 * (at_offset_1 % 256)⟩

/-- Modelled from the spec: `to_color_f` scales each integer channel in
`[0,31]` linearly to `[0,1]` by dividing by `31.0`. -/
def SnesColor.to_color_f (c : SnesColor) : ColorF K :=
  ⟨(c.red : K) / 31, (c.green : K) / 31, (c.blue : K) / 31⟩

/-- Modelled from the spec: quantize one float channel to `[0,31]`:
`round(v * 31.0)`, clamped to `[0,31]` before encoding. -/
def quantizeChannel (v : K) : ℕ := (clamp (round (v * 31)) 0 31).toNat

/-- Modelled from the spec: `from_color_f` quantizes each channel to the
nearest 5-bit value and packs the result. -/
def SnesColor.from_color_f (c : ColorF K) : SnesColor :=
  SnesColor.from_rgb (quantizeChannel c.red) (quantizeChannel c.green)
    (quantizeChannel c.blue)

/-- Translation of `maseya_blend.py`: the hue computed by `maseya_blend`,
`changes.red * 0.95 + 0.025 + color.hue` (a pure addition, not wrapped). -/
def maseyaHue (color changes : ColorF K) : K :=
  changes.red * 0.95 + 0.025 + color.hue

/-- Translation of `maseya_blend.py`: the chroma computed by `maseya_blend`.
The square root of the Python source is passed in as `sqrtK` (instantiated
with the real square root). -/
def maseyaChroma (sqrtK : K → K) (color changes : ColorF K) : K :=
  let chroma_shift : K := changes.green - 0.5
  if chroma_shift > 0 then
    color.chroma * (1 + (1 - color.chroma) * chroma_shift * 0.5)
  else
    color.chroma * sqrtK (1 - (chroma_shift * 2) ^ 2)

/-- Translation of `maseya_blend.py`: the luma computed by `maseya_blend`,
which reads back the just-computed chroma. -/
def maseyaLuma (sqrtK : K → K) (color changes : ColorF K) : K :=
  let luma_shift : K := changes.blue - 0.5
  if luma_shift > 0 then
    color.luma *
      (1 + (1 - color.luma) * luma_shift *
        (1 + max (color.chroma - maseyaChroma sqrtK color changes) 0))
  else
    color.luma * (1 + luma_shift / 2)

/-- Translation of `maseya_blend.py`: `maseya_blend color changes` feeds the
shifted hue, chroma and luma to `ColorF.from_hcy`. -/
def maseya_blend (sqrtK : K → K) (color changes : ColorF K) : ColorF K :=
  ColorF.from_hcy (maseyaHue color changes) (maseyaChroma sqrtK color changes)
    (maseyaLuma sqrtK color changes)

/-- A byte buffer (the Python `bytearray` rom), indexed by integers. Reads and
writes in the engine only touch small windows at the supplied offsets. -/
def Buf : Type := ℤ → ℕ

/-- Point update of a buffer, the embedding of `rom[i] = v`. -/
def updateBuf (rom : Buf) (i : ℤ) (v : ℕ) : Buf :=
  fun j => if j = i then v else rom j

/-- Translation of the `raw` reader in `PaletteEditor.__init__`:
`SnesColor.from_high_and_low(rom[offset], rom[offset + 1])`. -/
def readRaw (rom : Buf) (offset : ℤ) : SnesColor :=
  SnesColor.from_high_and_low (rom offset) (rom (offset + 1))

/-- Translation of the `oam` reader in `PaletteEditor.__init__`: channels are
the bytes at `offset`, `offset + 1` and `offset + 4`, masked with `0x1F`. -/
def readOam (rom : Buf) (offset : ℤ) : SnesColor :=
  SnesColor.from_rgb (rom offset &&& 0x1F) (rom (offset + 1) &&& 0x1F)
    (rom (offset + 4) &&& 0x1F)

/-- Translation of `get_color` in `PaletteEditor.__init__`: non-negative
offsets decode raw, negative offsets decode OAM at the negated offset. -/
def get_color (rom : Buf) (offset : ℤ) : SnesColor :=
  if 0 ≤ offset then readRaw rom offset else readOam rom (-offset)

/-- Translation of the `raw` writer in `PaletteEditor.write_to_rom`: store the
low byte at `offset` and the high byte at `offset + 1`. -/
def writeRaw (rom : Buf) (offset : ℤ) (color : SnesColor) : Buf :=
  updateBuf (updateBuf rom offset color.low) (offset + 1) color.high

/-- Translation of the `oam` writer in `PaletteEditor.write_to_rom`: the red,
green, green again and blue channels, each with its fixed marker bit, at
`offset`, `offset + 1`, `offset + 3` and `offset + 4`. -/
def writeOam (rom : Buf) (offset : ℤ) (color : SnesColor) : Buf :=
  updateBuf
    (updateBuf
      (updateBuf (updateBuf rom offset (color.red ||| 0x20))
        (offset + 1) (color.green ||| 0x40))
      (offset + 3) (color.green ||| 0x40))
    (offset + 4) (color.blue ||| 0x80)

/-- Translation of `write_color` in `PaletteEditor.write_to_rom`: dispatch on
the sign of the offset like `get_color`. -/
def write_color (rom : Buf) (offset : ℤ) (color : SnesColor) : Buf :=
  if 0 ≤ offset then writeRaw rom offset color else writeOam rom (-offset) color

/-- First-occurrence deduplication of an offset list: the key sequence of the
Python dict comprehension `{offset: ... for offset in offsets}` (dict keys keep
the position of their first occurrence; a duplicate key only rewrites the
value, which here is a pure function of the offset and the rom, hence
unchanged). -/
def firstDedup : List ℤ → List ℤ
  | [] => []
  | o :: rest => o :: firstDedup (rest.filter (fun x => x ≠ o))
termination_by l => l.length
decreasing_by
  simp only [List.length_cons]
  exact Nat.lt_succ_of_le (List.length_filter_le _ _)

/-- The palette editor state: its ordered slot mapping from offset to working
color, as built by `PaletteEditor.__init__`. -/
structure PaletteEditor (K : Type) where
  items : List (ℤ × ColorF K)

/-- Translation of `PaletteEditor.__init__`: decode one `ColorF` per distinct
offset from the rom, in first-occurrence order of the supplied list. -/
def PaletteEditor.ofRom (rom : Buf) (offsets : List ℤ) : PaletteEditor K :=
  ⟨(firstDedup offsets).map (fun o => (o, (get_color rom o).to_color_f))⟩

/-- Translation of `PaletteEditor.blend`: draw one color from the source (the
stream value at the current position), apply the blend function with that same
color to every slot, and advance the source position by one. The Python
iterator protocol of the color source is modelled as an indexed stream plus an
explicit position. -/
def PaletteEditor.blend (ed : PaletteEditor K)
    (blend_func : ColorF K → ColorF K → ColorF K)
    (source : ℕ → ColorF K) (pos : ℕ) : PaletteEditor K × ℕ :=
  (⟨ed.items.map (fun p => (p.1, blend_func p.2 (source pos)))⟩, pos + 1)

/-- Modelled from the spec: `PaletteEditor.blend_by_color` (absent from the
source tree) draws a fresh color from the source for every slot independently,
in slot order, advancing the position once per slot. -/
def PaletteEditor.blend_by_color (ed : PaletteEditor K)
    (blend_func : ColorF K → ColorF K → ColorF K)
    (source : ℕ → ColorF K) (pos : ℕ) : PaletteEditor K × ℕ :=
  (⟨ed.items.mapIdx (fun i p => (p.1, blend_func p.2 (source (pos + i))))⟩,
    pos + ed.items.length)

/-- Translation of `PaletteEditor.write_to_rom`: encode every slot in item
order back into the buffer. -/
def PaletteEditor.write_to_rom (ed : PaletteEditor K) (rom : Buf) : Buf :=
  ed.items.foldl (fun r p => write_color r p.1 (SnesColor.from_color_f p.2)) rom

/-- The application strategy of a mode: `PaletteEditor.blend` (uniform) or
`PaletteEditor.blend_by_color` (per slot). -/
inductive Strategy
  | uniform
  | perSlot
deriving DecidableEq

/-- The error raised by `randomize` on an unknown mode name (the `KeyError` of
the Python dict lookup). -/
inductive RandErr
  | invalidMode
deriving DecidableEq

/-- A placeholder color standing for the Python `None` that the source cycles
as color source for the `grayscale` and `negative` modes; the transforms
paired with it ignore their second argument. -/
def noneColor : ColorF K := ⟨0, 0, 0⟩

/-- The black color cycled as color source by the `blackout` mode. -/
def blackColor : ColorF K := ⟨0, 0, 0⟩

/-- The lowercased mode names the `algorithm_tuples` dict of
`palette_randomizer.randomize` recognizes, aliases included. -/
def modeKeys : List String :=
  ["maseya", "grayscale", "negative", "blackout", "classic", "dizzy", "sick",
    "puke", "default", "greyscale", "invert", "inverse", "inverted"]

/-- Translation of the `algorithm_tuples` dict of `palette_randomizer.py`:
map a lowercased mode name to its blend function, color source stream and
application strategy. The callers generator is `user`; the unspecified
`acid_blend` of the `classic` mode (absent from the source tree) is the
parameter `acidK`. -/
def algTable (sqrtK : K → K) (acidK : ColorF K → ColorF K → ColorF K)
    (user : ℕ → ColorF K) (m : String) :
    Option ((ColorF K → ColorF K → ColorF K) × (ℕ → ColorF K) × Strategy) :=
  if m = "maseya" ∨ m = "default" then
    some (maseya_blend sqrtK, user, .uniform)
  else if m = "grayscale" ∨ m = "greyscale" then
    some (fun x _ => x.grayscale, fun _ => noneColor, .uniform)
  else if m = "negative" ∨ m = "invert" ∨ m = "inverse" ∨ m = "inverted" then
    some (fun x _ => x.inverse, fun _ => noneColor, .uniform)
  else if m = "blackout" then
    some (fun _ y => y, fun _ => blackColor, .uniform)
  else if m = "classic" then
    some (acidK, user, .uniform)
  else if m = "dizzy" then
    some (ColorF.hue_blend, user, .perSlot)
  else if m = "sick" then
    some (fun x y => ColorF.luma_blend y x, user, .perSlot)
  else if m = "puke" then
    some (fun _ y => y, user, .perSlot)
  else none

/-- Dispatch of `palette_blend(palette_editor, color_blend, color_generator)`
on the strategy stored in the mode table. -/
def applyStrategy (strat : Strategy) (ed : PaletteEditor K)
    (tf : ColorF K → ColorF K → ColorF K) (source : ℕ → ColorF K) (pos : ℕ) :
    PaletteEditor K × ℕ :=
  match strat with
  | .uniform => ed.blend tf source pos
  | .perSlot => ed.blend_by_color tf source pos

/-- Translation of `palette_randomizer.randomize`: lowercase the mode, return
the rom untouched for mode `none`, build one palette editor per offset
collection from the unmutated rom, look the mode up in the table (failing with
`invalidMode` on a miss, after the editors were built but before any write),
then for each editor in order run the strategy and write back, threading the
shared color source position across editors. -/
def randomize (sqrtK : K → K) (acidK : ColorF K → ColorF K → ColorF K)
    (rom : Buf) (mode : String) (offsetsList : List (List ℤ))
    (user : ℕ → ColorF K) : Except RandErr Buf :=
  let m : String := lowerStr mode
  if m = "none" then .ok rom
  else
    let editors : List (PaletteEditor K) :=
      offsetsList.map (fun offs => PaletteEditor.ofRom rom offs)
    match algTable sqrtK acidK user m with
    | none => .error .invalidMode
    | some (tf, stream, strat) =>
      .ok (editors.foldl
        (fun (acc : Buf × ℕ) ed =>
          let r := applyStrategy strat ed tf stream acc.2
          (r.1.write_to_rom acc.1, r.2))
        (rom, 0)).1

theorem clamp_eq_self {α : Type} [LinearOrder α] (v lo hi : α) (h1 : lo ≤ v)
    (h2 : v ≤ hi) : clamp v lo hi = v := by
  simp only [clamp, if_neg (not_lt.mpr h1), if_neg (not_lt.mpr h2)]

theorem updateBuf_same (rom : Buf) (i : ℤ) (v : ℕ) : updateBuf rom i v i = v := by
  simp [updateBuf]

theorem updateBuf_other (rom : Buf) (i j : ℤ) (v : ℕ) (h : j ≠ i) :
    updateBuf rom i v j = rom j := by
  simp [updateBuf, h]

theorem SnesColor.from_rgb_red (r g b : ℕ) (h : r ≤ 31) :
    (SnesColor.from_rgb r g b).red = r := by
  simp only [SnesColor.from_rgb, SnesColor.red]; omega

theorem SnesColor.from_rgb_green (r g b : ℕ) (h : g ≤ 31) :
    (SnesColor.from_rgb r g b).green = g := by
  simp only [SnesColor.from_rgb, SnesColor.green]; omega

theorem SnesColor.from_rgb_blue (r g b : ℕ) (h : b ≤ 31) :
    (SnesColor.from_rgb r g b).blue = b := by
  simp only [SnesColor.from_rgb, SnesColor.blue]; omega

theorem readRaw_writeRaw (rom : Buf) (o : ℤ) (c : SnesColor)
    (hv : c.value < 32768) : readRaw (writeRaw rom o c) o = c := by
  obtain ⟨v⟩ := c
  have h1 : o ≠ o + 1 := by omega
  simp only [readRaw, writeRaw, updateBuf_same, updateBuf_other _ _ _ _ h1,
    SnesColor.from_high_and_low, SnesColor.low, SnesColor.high,
    SnesColor.mk.injEq]
  simp only [SnesColor.value] at hv ⊢
  omega

theorem lor32_and31 (r : ℕ) (h : r < 32) : (r ||| 0x20) &&& 0x1F = r := by
  interval_cases r <;> rfl

theorem lor64_and31 (r : ℕ) (h : r < 32) : (r ||| 0x40) &&& 0x1F = r := by
  interval_cases r <;> rfl

theorem lor128_and31 (r : ℕ) (h : r < 32) : (r ||| 0x80) &&& 0x1F = r := by
  interval_cases r <;> rfl

theorem readOam_writeOam (rom : Buf) (o : ℤ) (c : SnesColor)
    (hr : c.red < 32) (hg : c.green < 32) (hb : c.blue < 32) :
    readOam (writeOam rom o c) o = SnesColor.from_rgb c.red c.green c.blue := by
  have e1 : o ≠ o + 4 := by omega
  have e2 : o ≠ o + 3 := by omega
  have e3 : o ≠ o + 1 := by omega
  have e4 : o + 1 ≠ o + 4 := by omega
  have e5 : o + 1 ≠ o + 3 := by omega
  simp only [readOam, writeOam, updateBuf_same,
    updateBuf_other _ _ _ _ e1, updateBuf_other _ _ _ _ e2,
    updateBuf_other _ _ _ _ e3, updateBuf_other _ _ _ _ e4,
    updateBuf_other _ _ _ _ e5]
  rw [lor32_and31 _ hr, lor64_and31 _ hg, lor128_and31 _ hb]

/-- Claim C2: for every channel triple `(r, g, b)` with each channel in
`[0, 31]`, encoding the color into a byte buffer with `write_color` and then
decoding from the same offset with `get_color` reproduces `(r, g, b)`
exactly, both for the raw 2-byte encoding (non-negative offset) and for the
5-byte OAM encoding (negative offset). -/
theorem encode_decode_roundtrip (rom : Buf) (offset : ℤ) (r g b : ℕ)
    (hr : r ≤ 31) (hg : g ≤ 31) (hb : b ≤ 31) :
    get_color (write_color rom offset (SnesColor.from_rgb r g b)) offset =
        SnesColor.from_rgb r g b ∧
      (get_color (write_color rom offset (SnesColor.from_rgb r g b)) offset).red
          = r ∧
      (get_color (write_color rom offset (SnesColor.from_rgb r g b)) offset).green
          = g ∧
      (get_color (write_color rom offset (SnesColor.from_rgb r g b)) offset).blue
          = b := by
  have hmain :
      get_color (write_color rom offset (SnesColor.from_rgb r g b)) offset =
        SnesColor.from_rgb r g b := by
    by_cases h : 0 ≤ offset
    · simp only [get_color, write_color, if_pos h]
      refine readRaw_writeRaw rom offset _ ?_
      simp only [SnesColor.from_rgb]
      omega
    · simp only [get_color, write_color, if_neg h]
      rw [readOam_writeOam rom (-offset) _ (by simp [SnesColor.from_rgb, SnesColor.red]; omega)
          (by simp [SnesColor.from_rgb, SnesColor.green]; omega)
          (by simp [SnesColor.from_rgb, SnesColor.blue]; omega)]
      rw [SnesColor.from_rgb_red _ _ _ hr, SnesColor.from_rgb_green _ _ _ hg,
        SnesColor.from_rgb_blue _ _ _ hb]
  exact ⟨hmain, by rw [hmain]; exact SnesColor.from_rgb_red _ _ _ hr,
    by rw [hmain]; exact SnesColor.from_rgb_green _ _ _ hg,
    by rw [hmain]; exact SnesColor.from_rgb_blue _ _ _ hb⟩

/-- Witness for C2 at a raw slot (offset `3`) and an OAM slot (offset `-7`)
with channels `(10, 20, 5)`. -/
theorem encode_decode_roundtrip_witness :
    (get_color (write_color (fun _ => 0) 3 (SnesColor.from_rgb 10 20 5)) 3 =
        SnesColor.from_rgb 10 20 5 ∧
      (get_color (write_color (fun _ => 0) 3 (SnesColor.from_rgb 10 20 5)) 3).red
          = 10 ∧
      (get_color (write_color (fun _ => 0) 3 (SnesColor.from_rgb 10 20 5)) 3).green
          = 20 ∧
      (get_color (write_color (fun _ => 0) 3 (SnesColor.from_rgb 10 20 5)) 3).blue
          = 5) ∧
    (get_color (write_color (fun _ => 0) (-7) (SnesColor.from_rgb 10 20 5)) (-7) =
        SnesColor.from_rgb 10 20 5 ∧
      (get_color (write_color (fun _ => 0) (-7) (SnesColor.from_rgb 10 20 5)) (-7)).red
          = 10 ∧
      (get_color (write_color (fun _ => 0) (-7) (SnesColor.from_rgb 10 20 5)) (-7)).green
          = 20 ∧
      (get_color (write_color (fun _ => 0) (-7) (SnesColor.from_rgb 10 20 5)) (-7)).blue
          = 5) :=
  ⟨encode_decode_roundtrip (fun _ => 0) 3 10 20 5 (by decide) (by decide) (by decide),
    encode_decode_roundtrip (fun _ => 0) (-7) 10 20 5 (by decide) (by decide) (by decide)⟩

/-- Claim C9: for every OAM slot (negative offset, base the negated offset)
with channels `red`, `green`, `blue` each in `[0, 31]`, the write-back stores
byte 0 = red OR `0x20`, byte 1 = green OR `0x40`, byte 3 = green OR `0x40`
(duplicating byte 1), byte 4 = blue OR `0x80`, leaves byte 2 unchanged, and
the decoder reads the channels back from bytes 0, 1 and 4 by masking the
marker bits with `0x1F`. -/
theorem oam_write_layout (rom : Buf) (offset : ℤ) (r g b : ℕ)
    (ho : offset < 0) (hr : r ≤ 31) (hg : g ≤ 31) (hb : b ≤ 31) :
    (write_color rom offset (SnesColor.from_rgb r g b)) (-offset) = r ||| 0x20 ∧
    (write_color rom offset (SnesColor.from_rgb r g b)) (-offset + 1) = g ||| 0x40 ∧
    (write_color rom offset (SnesColor.from_rgb r g b)) (-offset + 3) = g ||| 0x40 ∧
    (write_color rom offset (SnesColor.from_rgb r g b)) (-offset + 4) = b ||| 0x80 ∧
    (write_color rom offset (SnesColor.from_rgb r g b)) (-offset + 2) =
      rom (-offset + 2) ∧
    (readOam (write_color rom offset (SnesColor.from_rgb r g b)) (-offset)).red
      = r ∧
    (readOam (write_color rom offset (SnesColor.from_rgb r g b)) (-offset)).green
      = g ∧
    (readOam (write_color rom offset (SnesColor.from_rgb r g b)) (-offset)).blue
      = b := by
  have hw : write_color rom offset (SnesColor.from_rgb r g b) =
      writeOam rom (-offset) (SnesColor.from_rgb r g b) := by
    simp only [write_color, if_neg (not_le.mpr ho)]
  have hcr : (SnesColor.from_rgb r g b).red = r := SnesColor.from_rgb_red _ _ _ hr
  have hcg : (SnesColor.from_rgb r g b).green = g := SnesColor.from_rgb_green _ _ _ hg
  have hcb : (SnesColor.from_rgb r g b).blue = b := SnesColor.from_rgb_blue _ _ _ hb
  set base : ℤ := -offset with hbase
  have e1 : base ≠ base + 4 := by omega
  have e2 : base ≠ base + 3 := by omega
  have e3 : base ≠ base + 1 := by omega
  have e4 : base + 1 ≠ base + 4 := by omega
  have e5 : base + 1 ≠ base + 3 := by omega
  have e6 : base + 3 ≠ base + 4 := by omega
  have e7 : base + 2 ≠ base + 4 := by omega
  have e8 : base + 2 ≠ base + 3 := by omega
  have e9 : base + 2 ≠ base + 1 := by omega
  have e10 : base + 2 ≠ base := by omega
  refine ⟨?_, ?_, ?_, ?_, ?_, ?_, ?_, ?_⟩ <;>
    simp only [hw, writeOam, hcr, hcg, hcb, ← hbase, updateBuf_same,
      updateBuf_other _ _ _ _ e1, updateBuf_other _ _ _ _ e2,
      updateBuf_other _ _ _ _ e3, updateBuf_other _ _ _ _ e4,
      updateBuf_other _ _ _ _ e5, updateBuf_other _ _ _ _ e6,
      updateBuf_other _ _ _ _ e7, updateBuf_other _ _ _ _ e8,
      updateBuf_other _ _ _ _ e9, updateBuf_other _ _ _ _ e10, readOam,
      SnesColor.from_rgb_red, SnesColor.from_rgb_green, SnesColor.from_rgb_blue]
  · rw [lor32_and31 _ (by omega)]
    exact (SnesColor.from_rgb_red _ _ _ (by omega)).trans rfl
  · rw [lor64_and31 _ (by omega)]
    exact SnesColor.from_rgb_green _ _ _ (by omega)
  · rw [lor128_and31 _ (by omega)]
    exact SnesColor.from_rgb_blue _ _ _ (by omega)

/-- Witness for C9 at offset `-5` with channels `(1, 2, 3)`. -/
theorem oam_write_layout_witness :
    (write_color (fun _ => 9) (-5) (SnesColor.from_rgb 1 2 3)) (-(-5)) = 1 ||| 0x20 ∧
    (write_color (fun _ => 9) (-5) (SnesColor.from_rgb 1 2 3)) (-(-5) + 1) = 2 ||| 0x40 ∧
    (write_color (fun _ => 9) (-5) (SnesColor.from_rgb 1 2 3)) (-(-5) + 3) = 2 ||| 0x40 ∧
    (write_color (fun _ => 9) (-5) (SnesColor.from_rgb 1 2 3)) (-(-5) + 4) = 3 ||| 0x80 ∧
    (write_color (fun _ => 9) (-5) (SnesColor.from_rgb 1 2 3)) (-(-5) + 2) =
      (fun (_ : ℤ) => 9) (-(-5) + 2) ∧
    (readOam (write_color (fun _ => 9) (-5) (SnesColor.from_rgb 1 2 3)) (-(-5))).red
      = 1 ∧
    (readOam (write_color (fun _ => 9) (-5) (SnesColor.from_rgb 1 2 3)) (-(-5))).green
      = 2 ∧
    (readOam (write_color (fun _ => 9) (-5) (SnesColor.from_rgb 1 2 3)) (-(-5))).blue
      = 3 :=
  oam_write_layout (fun _ => 9) (-5) 1 2 3 (by decide) (by decide) (by decide)
    (by decide)

/-- Claim C5: for every byte buffer, offsets iterator and color source,
`randomize` with a mode that lowercases to `"none"` returns the buffer
byte-for-byte unchanged. -/
theorem randomize_none_id (sqrtK : K → K)
    (acidK : ColorF K → ColorF K → ColorF K) (rom : Buf) (mode : String)
    (offsetsList : List (List ℤ)) (user : ℕ → ColorF K)
    (h : lowerStr mode = "none") :
    randomize sqrtK acidK rom mode offsetsList user = .ok rom := by
  simp only [randomize, h, if_pos]

/-- Witness for C5 with the mixed-case mode `"NoNe"`. -/
theorem randomize_none_id_witness :
    randomize (K := ℚ) id (fun x _ => x) (fun _ => 0) "NoNe" [[0, -3]]
      (fun _ => noneColor) = .ok (fun _ => 0) :=
  randomize_none_id id (fun x _ => x) (fun _ => 0) "NoNe" [[0, -3]]
    (fun _ => noneColor) (by decide)

theorem algTable_eq_none (sqrtK : K → K)
    (acidK : ColorF K → ColorF K → ColorF K) (user : ℕ → ColorF K)
    (m : String) (h : m ∉ modeKeys) : algTable sqrtK acidK user m = none := by
  simp only [modeKeys, List.mem_cons, List.not_mem_nil, or_false, not_or] at h
  obtain ⟨k1, k2, k3, k4, k5, k6, k7, k8, k9, k10, k11, k12, k13⟩ := h
  simp [algTable, k1, k2, k3, k4, k5, k6, k7, k8, k9, k10, k11, k12, k13]

/-- Claim C8: for every mode string whose lowercasing is not in the alias
table, `randomize` fails with the invalid-mode error rather than silently
falling back to a default, so no buffer mutation is ever produced by the
call. -/
theorem randomize_unknown_mode (sqrtK : K → K)
    (acidK : ColorF K → ColorF K → ColorF K) (rom : Buf) (mode : String)
    (offsetsList : List (List ℤ)) (user : ℕ → ColorF K)
    (h1 : lowerStr mode ∉ modeKeys) (h2 : lowerStr mode ≠ "none") :
    randomize sqrtK acidK rom mode offsetsList user = .error .invalidMode := by
  simp only [randomize, if_neg h2, algTable_eq_none sqrtK acidK user _ h1]

/-- Witness for C8 with the unknown mode `"Bogus"`. -/
theorem randomize_unknown_mode_witness :
    randomize (K := ℚ) id (fun x _ => x) (fun _ => 0) "Bogus" [[0, -3]]
      (fun _ => noneColor) = .error .invalidMode :=
  randomize_unknown_mode id (fun x _ => x) (fun _ => 0) "Bogus" [[0, -3]]
    (fun _ => noneColor) (by decide) (by decide)

/-- The hue formula as the spec states it: `x.hue + 0.025 + 0.95 * y.red`. -/
noncomputable def specMaseyaHue (x y : ColorF ℝ) : ℝ := x.hue + 0.025 + 0.95 * y.red

/-- The chroma formula as the spec states it: with `shift = y.green - 0.5`,
`x.chroma * (1 + (1 - x.chroma) * shift * 0.5)` when the shift is positive,
else `x.chroma * sqrt(1 - (2 * shift)^2)`. -/
noncomputable def specMaseyaChroma (x y : ColorF ℝ) : ℝ :=
  let shift : ℝ := y.green - 0.5
  if shift > 0 then x.chroma * (1 + (1 - x.chroma) * shift * 0.5)
  else x.chroma * Real.sqrt (1 - (2 * shift) ^ 2)

/-- The luma formula as the spec states it: with `shift = y.blue - 0.5`,
`x.luma * (1 + (1 - x.luma) * shift * (1 + max (x.chroma - c) 0))` when the
shift is positive (with `c` the new chroma), else `x.luma * (1 + shift / 2)`. -/
noncomputable def specMaseyaLuma (x y : ColorF ℝ) : ℝ :=
  let shift : ℝ := y.blue - 0.5
  if shift > 0 then
    x.luma * (1 + (1 - x.luma) * shift * (1 + max (x.chroma - specMaseyaChroma x y) 0))
  else x.luma * (1 + shift / 2)

theorem maseyaChroma_eq_spec (x y : ColorF ℝ) :
    maseyaChroma Real.sqrt x y = specMaseyaChroma x y := by
  simp only [maseyaChroma, specMaseyaChroma]
  split_ifs with h
  · ring
  · have : (y.green - 0.5) * 2 = 2 * (y.green - 0.5) := by ring
    rw [this]

/-- Claim C3: for every existing color `x` and change color `y`, the default
(maseya) blend returns `from_hcy` of exactly the closed-form hue, chroma and
luma formulas of the spec; the blend is a pure function of `(x, y)`, hence
deterministic. -/
theorem maseya_blend_eq_spec_formulas (x y : ColorF ℝ) :
    maseya_blend Real.sqrt x y =
      ColorF.from_hcy (specMaseyaHue x y) (specMaseyaChroma x y)
        (specMaseyaLuma x y) := by
  have hh : maseyaHue x y = specMaseyaHue x y := by
    simp only [maseyaHue, specMaseyaHue]; ring
  have hc := maseyaChroma_eq_spec x y
  have hl : maseyaLuma Real.sqrt x y = specMaseyaLuma x y := by
    simp only [maseyaLuma, specMaseyaLuma, hc]
  rw [maseya_blend, hh, hc, hl]

/-- Claim C6: for every existing color `x` and change color `y` with
`y.red` in `[0, 1]`, the hue the default blend feeds to `from_hcy` is the
pure (unwrapped) addition `x.hue + (0.025 + 0.95 * y.red)`, so it differs
from `x.hue` by at least `0.025` and at most `0.975` turn units. -/
theorem maseya_hue_shift_bounds (x y : ColorF ℝ) (h0 : 0 ≤ y.red)
    (h1 : y.red ≤ 1) :
    maseya_blend Real.sqrt x y =
        ColorF.from_hcy (maseyaHue x y) (maseyaChroma Real.sqrt x y)
          (maseyaLuma Real.sqrt x y) ∧
      maseyaHue x y - x.hue = 0.025 + 0.95 * y.red ∧
      0.025 ≤ maseyaHue x y - x.hue ∧ maseyaHue x y - x.hue ≤ 0.975 := by
  refine ⟨rfl, by simp only [maseyaHue]; ring, ?_, ?_⟩
  · simp only [maseyaHue]
    nlinarith
  · simp only [maseyaHue]
    nlinarith

/-- Witness for C6 at `x = (0,0,0)` and `y = (1/2, 1/4, 3/4)`. -/
theorem maseya_hue_shift_bounds_witness :
    maseya_blend Real.sqrt ⟨0, 0, 0⟩ ⟨1/2, 1/4, 3/4⟩ =
        ColorF.from_hcy (maseyaHue ⟨0, 0, 0⟩ ⟨1/2, 1/4, 3/4⟩)
          (maseyaChroma Real.sqrt ⟨0, 0, 0⟩ ⟨1/2, 1/4, 3/4⟩)
          (maseyaLuma Real.sqrt ⟨0, 0, 0⟩ ⟨1/2, 1/4, 3/4⟩) ∧
      maseyaHue ⟨0, 0, 0⟩ ⟨1/2, 1/4, 3/4⟩ - ColorF.hue (K := ℝ) ⟨0, 0, 0⟩ =
        0.025 + 0.95 * (1/2) ∧
      0.025 ≤ maseyaHue ⟨0, 0, 0⟩ ⟨1/2, 1/4, 3/4⟩ - ColorF.hue (K := ℝ) ⟨0, 0, 0⟩ ∧
      maseyaHue ⟨0, 0, 0⟩ ⟨1/2, 1/4, 3/4⟩ - ColorF.hue (K := ℝ) ⟨0, 0, 0⟩ ≤ 0.975 :=
  maseya_hue_shift_bounds ⟨0, 0, 0⟩ ⟨1/2, 1/4, 3/4⟩ (by norm_num) (by norm_num)

theorem mem_firstDedup (x : ℤ) (l : List ℤ) : x ∈ firstDedup l ↔ x ∈ l := by
  induction l using firstDedup.induct with
  | case1 => simp [firstDedup]
  | case2 o rest ih =>
    rw [firstDedup]
    simp only [List.mem_cons, ih, List.mem_filter, decide_eq_true_eq]
    by_cases hx : x = o <;> simp [hx]

theorem nodup_firstDedup (l : List ℤ) : (firstDedup l).Nodup := by
  induction l using firstDedup.induct with
  | case1 => simp [firstDedup]
  | case2 o rest ih =>
    rw [firstDedup]
    refine List.nodup_cons.mpr ⟨fun hmem => ?_, ih⟩
    rw [mem_firstDedup] at hmem
    simp at hmem

theorem firstDedup_sublist (l : List ℤ) : (firstDedup l).Sublist l := by
  induction l using firstDedup.induct with
  | case1 => simp [firstDedup]
  | case2 o rest ih =>
    rw [firstDedup]
    exact List.Sublist.cons₂ o (ih.trans (List.filter_sublist rest))

/-- Claim C10: the palette editor keeps exactly one slot per distinct offset
(duplicates in the supplied list collapse at construction, keeping
first-occurrence order, the Python dict-comprehension semantics), so the
uniform blend still draws a single color and applies the transform once per
distinct offset, the per-slot strategy draws one fresh color per distinct
offset rather than per list element, and write-back writes each distinct
offset exactly once, iterating in first-occurrence order. -/
theorem editor_dedup_semantics (rom : Buf) (offsets : List ℤ)
    (f : ColorF ℚ → ColorF ℚ → ColorF ℚ) (src : ℕ → ColorF ℚ) (pos : ℕ) :
    ((PaletteEditor.ofRom (K := ℚ) rom offsets).items.map Prod.fst =
        firstDedup offsets) ∧
      ((PaletteEditor.ofRom (K := ℚ) rom offsets).items.map Prod.fst).Nodup ∧
      (∀ o, o ∈ (PaletteEditor.ofRom (K := ℚ) rom offsets).items.map Prod.fst ↔
        o ∈ offsets) ∧
      ((PaletteEditor.ofRom (K := ℚ) rom offsets).items.map Prod.fst).Sublist
        offsets ∧
      ((PaletteEditor.ofRom (K := ℚ) rom offsets).blend f src pos).2 = pos + 1 ∧
      ((PaletteEditor.ofRom (K := ℚ) rom offsets).blend f src pos).1.items.length
        = (firstDedup offsets).length ∧
      ((PaletteEditor.ofRom (K := ℚ) rom offsets).blend_by_color f src pos).2
        = pos + (firstDedup offsets).length ∧
      (PaletteEditor.ofRom (K := ℚ) rom offsets).write_to_rom rom =
        (firstDedup offsets).foldl
          (fun r o =>
            write_color r o
              (SnesColor.from_color_f ((get_color rom o).to_color_f (K := ℚ))))
          rom := by
  have hkeys : (PaletteEditor.ofRom (K := ℚ) rom offsets).items.map Prod.fst =
      firstDedup offsets := by
    simp only [PaletteEditor.ofRom, List.map_map]
    exact List.map_id'' (fun _ => rfl) _
  refine ⟨hkeys, ?_, ?_, ?_, ?_, ?_, ?_, ?_⟩
  · rw [hkeys]; exact nodup_firstDedup offsets
  · intro o; rw [hkeys, mem_firstDedup]
  · rw [hkeys]; exact firstDedup_sublist offsets
  · rfl
  · simp [PaletteEditor.blend, PaletteEditor.ofRom]
  · simp [PaletteEditor.blend_by_color, PaletteEditor.ofRom]
  · simp [PaletteEditor.write_to_rom, PaletteEditor.ofRom, List.foldl_map]

theorem firstDedup_pair (o1 o2 : ℤ) (h : o1 ≠ o2) :
    firstDedup [o1, o2] = [o1, o2] := by
  rw [firstDedup]
  have hf : List.filter (fun x => x ≠ o1) [o2] = [o2] := by
    simp [List.filter, Ne.symm h]
  rw [hf, firstDedup]
  simp [firstDedup]

/-- Claim C4: for a two-slot editor built on distinct offsets and a color
source, the uniform `blend` draws exactly one color from the source and
applies the transform with that same color to both slots, while
`blend_by_color` draws a fresh color per slot, handing the first source value
to slot 1 and the second to slot 2. -/
theorem blend_strategy_distinction (rom : Buf) (o1 o2 : ℤ) (h : o1 ≠ o2)
    (f : ColorF ℚ → ColorF ℚ → ColorF ℚ) (src : ℕ → ColorF ℚ) :
    ((PaletteEditor.ofRom (K := ℚ) rom [o1, o2]).blend f src 0).1.items =
        [(o1, f (get_color rom o1).to_color_f (src 0)),
          (o2, f (get_color rom o2).to_color_f (src 0))] ∧
      ((PaletteEditor.ofRom (K := ℚ) rom [o1, o2]).blend f src 0).2 = 1 ∧
      ((PaletteEditor.ofRom (K := ℚ) rom [o1, o2]).blend_by_color f src 0).1.items
        = [(o1, f (get_color rom o1).to_color_f (src 0)),
            (o2, f (get_color rom o2).to_color_f (src 1))] ∧
      ((PaletteEditor.ofRom (K := ℚ) rom [o1, o2]).blend_by_color f src 0).2
        = 2 := by
  have hed : (PaletteEditor.ofRom (K := ℚ) rom [o1, o2]).items =
      [(o1, (get_color rom o1).to_color_f), (o2, (get_color rom o2).to_color_f)] := by
    simp [PaletteEditor.ofRom, firstDedup_pair o1 o2 h]
  refine ⟨?_, rfl, ?_, ?_⟩
  · simp [PaletteEditor.blend, hed]
  · simp [PaletteEditor.blend_by_color, hed, List.mapIdx_cons]
  · simp [PaletteEditor.blend_by_color, hed]

/-- Witness for C4 at offsets `0` and `2` on the zero buffer. -/
theorem blend_strategy_distinction_witness :
    ((PaletteEditor.ofRom (K := ℚ) (fun _ => 0) [0, 2]).blend
          (fun _ y => y) (fun i => ⟨i, 0, 0⟩) 0).1.items =
        [(0, ((fun (_ y : ColorF ℚ) => y) (get_color (fun _ => 0) 0).to_color_f
            ((fun i => (⟨i, 0, 0⟩ : ColorF ℚ)) 0))),
          (2, ((fun (_ y : ColorF ℚ) => y) (get_color (fun _ => 0) 2).to_color_f
            ((fun i => (⟨i, 0, 0⟩ : ColorF ℚ)) 0)))] ∧
      ((PaletteEditor.ofRom (K := ℚ) (fun _ => 0) [0, 2]).blend
          (fun _ y => y) (fun i => ⟨i, 0, 0⟩) 0).2 = 1 ∧
      ((PaletteEditor.ofRom (K := ℚ) (fun _ => 0) [0, 2]).blend_by_color
          (fun _ y => y) (fun i => ⟨i, 0, 0⟩) 0).1.items =
        [(0, ((fun (_ y : ColorF ℚ) => y) (get_color (fun _ => 0) 0).to_color_f
            ((fun i => (⟨i, 0, 0⟩ : ColorF ℚ)) 0))),
          (2, ((fun (_ y : ColorF ℚ) => y) (get_color (fun _ => 0) 2).to_color_f
            ((fun i => (⟨i, 0, 0⟩ : ColorF ℚ)) 1)))] ∧
      ((PaletteEditor.ofRom (K := ℚ) (fun _ => 0) [0, 2]).blend_by_color
          (fun _ y => y) (fun i => ⟨i, 0, 0⟩) 0).2 = 2 :=
  blend_strategy_distinction (fun _ => 0) 0 2 (by decide) (fun _ y => y)
    (fun i => ⟨i, 0, 0⟩)

/-- The byte indices a slot write touches: two bytes for a raw slot, the four
marker-bearing bytes for an OAM slot. -/
def slotWindow (o : ℤ) : List ℤ :=
  if 0 ≤ o then [o, o + 1] else [-o, -o + 1, -o + 3, -o + 4]

/-- The bytes the blackout mode must leave at a slot: zeroes for raw, the bare
marker bits for OAM. -/
def blackoutMarks (o : ℤ) : List (ℤ × ℕ) :=
  if 0 ≤ o then [(o, 0), (o + 1, 0)]
  else [(-o, 0x20), (-o + 1, 0x40), (-o + 3, 0x40), (-o + 4, 0x80)]

/-- A buffer satisfies the blackout contract at a slot when every mark byte of
the slot holds its mark value. -/
def blackoutOk (rom : Buf) (o : ℤ) : Prop :=
  ∀ p ∈ blackoutMarks o, rom p.1 = p.2

/-- Writing the encoded black color at one slot. -/
def blackSlot (rom : Buf) (o : ℤ) : Buf :=
  write_color rom o (SnesColor.from_color_f (blackColor (K := ℚ)))

/-- All slots the randomizer writes, in write order: each collection
deduplicated to its distinct offsets, collections concatenated. -/
def allSlots (colls : List (List ℤ)) : List ℤ := (colls.map firstDedup).flatten

theorem quantizeChannel_zero : quantizeChannel (0 : ℚ) = 0 := by
  norm_num [quantizeChannel, clamp, round_eq]

theorem from_color_f_black :
    SnesColor.from_color_f (blackColor (K := ℚ)) = ⟨0⟩ := by
  simp [SnesColor.from_color_f, blackColor, quantizeChannel_zero,
    SnesColor.from_rgb]

theorem mem_marks_fst_window (o : ℤ) (p : ℤ × ℕ) (hp : p ∈ blackoutMarks o) :
    p.1 ∈ slotWindow o := by
  by_cases h : 0 ≤ o
  · simp only [blackoutMarks, if_pos h, List.mem_cons, List.not_mem_nil,
      or_false] at hp
    simp only [slotWindow, if_pos h, List.mem_cons, List.not_mem_nil, or_false]
    rcases hp with h1 | h1 <;> subst h1 <;> simp
  · simp only [blackoutMarks, if_neg h, List.mem_cons, List.not_mem_nil,
      or_false] at hp
    simp only [slotWindow, if_neg h, List.mem_cons, List.not_mem_nil, or_false]
    rcases hp with h1 | h1 | h1 | h1 <;> subst h1 <;> simp

theorem blackSlot_outside (rom : Buf) (o i : ℤ) (hi : i ∉ slotWindow o) :
    blackSlot rom o i = rom i := by
  rw [blackSlot, from_color_f_black]
  by_cases h : 0 ≤ o
  · simp only [slotWindow, if_pos h, List.mem_cons, List.not_mem_nil, or_false,
      not_or] at hi
    simp [write_color, if_pos h, writeRaw, updateBuf_other _ _ _ _ hi.1,
      updateBuf_other _ _ _ _ hi.2]
  · simp only [slotWindow, if_neg h, List.mem_cons, List.not_mem_nil, or_false,
      not_or] at hi
    obtain ⟨h1, h2, h3, h4⟩ := hi
    simp [write_color, if_neg h, writeOam, updateBuf_other _ _ _ _ h1,
      updateBuf_other _ _ _ _ h2, updateBuf_other _ _ _ _ h3,
      updateBuf_other _ _ _ _ h4]

theorem blackoutOk_self (rom : Buf) (o : ℤ) : blackoutOk (blackSlot rom o) o := by
  intro p hp
  rw [blackSlot, from_color_f_black]
  by_cases h : 0 ≤ o
  · simp only [blackoutMarks, if_pos h, List.mem_cons, List.not_mem_nil,
      or_false] at hp
    have e1 : o ≠ o + 1 := by omega
    rcases hp with h1 | h1 <;> subst h1
    · simp [write_color, if_pos h, writeRaw, updateBuf_same,
        updateBuf_other _ _ _ _ e1, SnesColor.low]
    · simp [write_color, if_pos h, writeRaw, updateBuf_same, SnesColor.high]
  · simp only [blackoutMarks, if_neg h, List.mem_cons, List.not_mem_nil,
      or_false] at hp
    have e1 : -o ≠ -o + 4 := by omega
    have e2 : -o ≠ -o + 3 := by omega
    have e3 : -o ≠ -o + 1 := by omega
    have e4 : -o + 1 ≠ -o + 4 := by omega
    have e5 : -o + 1 ≠ -o + 3 := by omega
    have e6 : -o + 3 ≠ -o + 4 := by omega
    rcases hp with h1 | h1 | h1 | h1 <;> subst h1 <;>
      simp [write_color, if_neg h, writeOam, updateBuf_same,
        updateBuf_other _ _ _ _ e1, updateBuf_other _ _ _ _ e2,
        updateBuf_other _ _ _ _ e3, updateBuf_other _ _ _ _ e4,
        updateBuf_other _ _ _ _ e5, updateBuf_other _ _ _ _ e6,
        SnesColor.red, SnesColor.green, SnesColor.blue]

theorem blackoutOk_preserve (rom : Buf) (o o' : ℤ)
    (h : o = o' ∨ ∀ i ∈ slotWindow o, i ∉ slotWindow o')
    (hok : blackoutOk rom o) : blackoutOk (blackSlot rom o') o := by
  rcases h with rfl | hdis
  · exact blackoutOk_self rom o
  · intro p hp
    rw [blackSlot_outside rom o' p.1 (hdis p.1 (mem_marks_fst_window o p hp))]
    exact hok p hp

theorem blackoutOk_foldl (L : List ℤ) (rom : Buf) (o : ℤ)
    (h : ∀ o' ∈ L, o = o' ∨ ∀ i ∈ slotWindow o, i ∉ slotWindow o')
    (hok : blackoutOk rom o) : blackoutOk (L.foldl blackSlot rom) o := by
  induction L generalizing rom with
  | nil => exact hok
  | cons a rest ih =>
    simp only [List.foldl_cons]
    exact ih (blackSlot rom a)
      (fun o' ho' => h o' (List.mem_cons_of_mem a ho'))
      (blackoutOk_preserve rom o a (h a (List.mem_cons_self a rest)) hok)

theorem blackoutOk_of_mem (L : List ℤ) (rom : Buf) (o : ℤ)
    (hpair : ∀ o1 ∈ L, ∀ o2 ∈ L,
      o1 = o2 ∨ ∀ i ∈ slotWindow o1, i ∉ slotWindow o2)
    (ho : o ∈ L) : blackoutOk (L.foldl blackSlot rom) o := by
  induction L generalizing rom with
  | nil => simp at ho
  | cons a rest ih =>
    simp only [List.foldl_cons]
    rcases List.mem_cons.mp ho with rfl | hmem
    · exact blackoutOk_foldl rest (blackSlot rom o) o
        (fun o' ho' => hpair o (List.mem_cons_self o rest) o'
          (List.mem_cons_of_mem o ho'))
        (blackoutOk_self rom o)
    · exact ih (blackSlot rom a)
        (fun o1 h1 o2 h2 => hpair o1 (List.mem_cons_of_mem a h1) o2
          (List.mem_cons_of_mem a h2))
        hmem

theorem algTable_blackout (sqrtK : ℚ → ℚ)
    (acidK : ColorF ℚ → ColorF ℚ → ColorF ℚ) (user : ℕ → ColorF ℚ) :
    algTable sqrtK acidK user "blackout" =
      some (fun _ y => y, fun _ => blackColor, .uniform) := by
  rfl

theorem blend_blackout_write (ed : PaletteEditor ℚ) (buf : Buf) (pos : ℕ) :
    ((ed.blend (fun _ y => y) (fun _ => blackColor) pos).1).write_to_rom buf =
      (ed.items.map Prod.fst).foldl blackSlot buf := by
  simp only [PaletteEditor.blend, PaletteEditor.write_to_rom, List.foldl_map]
  rfl

theorem randomize_blackout_eq (sqrtK : ℚ → ℚ)
    (acidK : ColorF ℚ → ColorF ℚ → ColorF ℚ) (rom : Buf)
    (colls : List (List ℤ)) (user : ℕ → ColorF ℚ) :
    randomize sqrtK acidK rom "blackout" colls user =
      .ok ((allSlots colls).foldl blackSlot rom) := by
  have hm : lowerStr "blackout" = "blackout" := by decide
  have haux : ∀ (cs : List (List ℤ)) (buf : Buf) (pos : ℕ),
      ((cs.map (fun offs => PaletteEditor.ofRom (K := ℚ) rom offs)).foldl
        (fun (acc : Buf × ℕ) ed =>
          let r := applyStrategy .uniform ed (fun _ y => y)
            (fun _ => blackColor) acc.2
          (r.1.write_to_rom acc.1, r.2))
        (buf, pos)).1 = (allSlots cs).foldl blackSlot buf := by
    intro cs
    induction cs with
    | nil => intro buf pos; simp [allSlots]
    | cons c rest ih =>
      intro buf pos
      simp only [List.map_cons, List.foldl_cons, allSlots, List.flatten,
        List.foldl_append]
      rw [ih]
      congr 1
      simp only [applyStrategy]
      rw [blend_blackout_write]
      congr 1
      simp only [PaletteEditor.ofRom, List.map_map]
      exact List.map_id'' (fun _ => rfl) _
  simp only [randomize, hm, if_neg (by decide : ¬("blackout" = "none")),
    algTable_blackout]
  exact congrArg Except.ok (haux colls rom 0)

/-- Counterexample to claim C7 as stated: with the all-zero buffer and the
single offset collection `[0, -1]`, the raw slot at offset `0` and the OAM
slot at base `1` overlap, the OAM marker byte written at index `1` lands in
the raw slot's high byte, and the raw slot decodes with a blue channel of
`8`, not `0`. -/
theorem blackout_overlap_cex :
    (readRaw
        ((randomize (K := ℚ) (fun x => x) (fun x _ => x) (fun _ => 0)
            "blackout" [[0, -1]] (fun _ => blackColor)).toOption.getD
          (fun _ => 0))
        0).blue ≠ 0 := by
  rw [randomize_blackout_eq]
  have h1 : allSlots [[0, -1]] = [0, -1] := by
    simp only [allSlots, List.map_cons, List.map_nil]
    rw [show List.flatten [firstDedup [0, -1]] = firstDedup [0, -1] by simp]
    exact firstDedup_pair 0 (-1) (by decide)
  simp only [Except.toOption, Option.getD, h1, List.foldl_cons, List.foldl_nil,
    blackSlot, from_color_f_black]
  decide

theorem mem_allSlots (o : ℤ) (colls : List (List ℤ)) :
    o ∈ allSlots colls ↔ o ∈ colls.flatten := by
  simp only [allSlots, List.mem_flatten, List.mem_map]
  constructor
  · rintro ⟨l, ⟨c, hc, rfl⟩, hm⟩
    exact ⟨c, hc, (mem_firstDedup o c).mp hm⟩
  · rintro ⟨c, hc, hm⟩
    exact ⟨firstDedup c, ⟨c, hc, rfl⟩, (mem_firstDedup o c).mpr hm⟩

/-- Claim C7, amended: whenever the byte windows of any two distinct offsets
appearing in the collections are disjoint (2 bytes for a raw slot, the four
marker bytes for an OAM slot), randomizing with mode `blackout` leaves every
raw slot decoding to channel values exactly `0` and every OAM slot holding
exactly the fixed marker bytes `0x20`, `0x40`, `0x40`, `0x80` with no channel
bits set. Without the disjointness proviso the claim fails (see the
counterexample on overlapping slots). -/
theorem randomize_blackout_black (sqrtK : ℚ → ℚ)
    (acidK : ColorF ℚ → ColorF ℚ → ColorF ℚ) (rom : Buf)
    (colls : List (List ℤ)) (user : ℕ → ColorF ℚ) (o : ℤ)
    (hdis : ∀ o1 ∈ colls.flatten, ∀ o2 ∈ colls.flatten,
      o1 = o2 ∨ ∀ i ∈ slotWindow o1, i ∉ slotWindow o2)
    (ho : o ∈ colls.flatten) :
    (0 ≤ o →
      (readRaw ((randomize sqrtK acidK rom "blackout" colls
            user).toOption.getD rom) o).red = 0 ∧
      (readRaw ((randomize sqrtK acidK rom "blackout" colls
            user).toOption.getD rom) o).green = 0 ∧
      (readRaw ((randomize sqrtK acidK rom "blackout" colls
            user).toOption.getD rom) o).blue = 0) ∧
    (o < 0 →
      ((randomize sqrtK acidK rom "blackout" colls user).toOption.getD rom)
          (-o) = 0x20 ∧
      ((randomize sqrtK acidK rom "blackout" colls user).toOption.getD rom)
          (-o + 1) = 0x40 ∧
      ((randomize sqrtK acidK rom "blackout" colls user).toOption.getD rom)
          (-o + 3) = 0x40 ∧
      ((randomize sqrtK acidK rom "blackout" colls user).toOption.getD rom)
          (-o + 4) = 0x80) := by
  rw [randomize_blackout_eq]
  have hok : blackoutOk ((allSlots colls).foldl blackSlot rom) o := by
    refine blackoutOk_of_mem (allSlots colls) rom o ?_
      ((mem_allSlots o colls).mpr ho)
    intro o1 h1 o2 h2
    exact hdis o1 ((mem_allSlots o1 colls).mp h1) o2
      ((mem_allSlots o2 colls).mp h2)
  simp only [Except.toOption, Option.getD]
  constructor
  · intro hpos
    have hb0 := hok (o, 0) (by simp [blackoutMarks, if_pos hpos])
    have hb1 := hok (o + 1, 0) (by simp [blackoutMarks, if_pos hpos])
    simp only at hb0 hb1
    simp [readRaw, hb0, hb1, SnesColor.from_high_and_low, SnesColor.red,
      SnesColor.green, SnesColor.blue]
  · intro hneg
    have hn := not_le.mpr hneg
    refine ⟨hok (-o, 0x20) ?_, hok (-o + 1, 0x40) ?_, hok (-o + 3, 0x40) ?_,
      hok (-o + 4, 0x80) ?_⟩ <;> simp [blackoutMarks, if_neg hn]

/-- Witness for the amended C7 on the collections `[[0, -4]]` (disjoint
windows) at the raw slot `0` and, in a second application, at the OAM slot
`-4`. -/
theorem randomize_blackout_black_witness :
    ((0 ≤ (0 : ℤ) →
      (readRaw ((randomize (K := ℚ) id (fun x _ => x) (fun _ => 7) "blackout"
            [[0, -4]] (fun _ => blackColor)).toOption.getD (fun _ => 7))
          0).red = 0 ∧
      (readRaw ((randomize (K := ℚ) id (fun x _ => x) (fun _ => 7) "blackout"
            [[0, -4]] (fun _ => blackColor)).toOption.getD (fun _ => 7))
          0).green = 0 ∧
      (readRaw ((randomize (K := ℚ) id (fun x _ => x) (fun _ => 7) "blackout"
            [[0, -4]] (fun _ => blackColor)).toOption.getD (fun _ => 7))
          0).blue = 0) ∧
    ((0 : ℤ) < 0 → True)) ∧
    (((-4 : ℤ) < 0 →
      ((randomize (K := ℚ) id (fun x _ => x) (fun _ => 7) "blackout"
            [[0, -4]] (fun _ => blackColor)).toOption.getD (fun _ => 7))
          (-(-4 : ℤ)) = 0x20 ∧
      ((randomize (K := ℚ) id (fun x _ => x) (fun _ => 7) "blackout"
            [[0, -4]] (fun _ => blackColor)).toOption.getD (fun _ => 7))
          (-(-4 : ℤ) + 1) = 0x40 ∧
      ((randomize (K := ℚ) id (fun x _ => x) (fun _ => 7) "blackout"
            [[0, -4]] (fun _ => blackColor)).toOption.getD (fun _ => 7))
          (-(-4 : ℤ) + 3) = 0x40 ∧
      ((randomize (K := ℚ) id (fun x _ => x) (fun _ => 7) "blackout"
            [[0, -4]] (fun _ => blackColor)).toOption.getD (fun _ => 7))
          (-(-4 : ℤ) + 4) = 0x80)) := by
  have hdis : ∀ o1 ∈ ([[0, -4]] : List (List ℤ)).flatten,
      ∀ o2 ∈ ([[0, -4]] : List (List ℤ)).flatten,
      o1 = o2 ∨ ∀ i ∈ slotWindow o1, i ∉ slotWindow o2 := by decide
  refine ⟨⟨?_, fun h => trivial⟩, ?_⟩
  · exact fun h => ((randomize_blackout_black id (fun x _ => x) (fun _ => 7)
      [[0, -4]] (fun _ => blackColor) 0 hdis (by decide)).1 h)
  · exact (randomize_blackout_black id (fun x _ => x) (fun _ => 7)
      [[0, -4]] (fun _ => blackColor) (-4) hdis (by decide)).2

theorem pymod_eval (a n : ℚ) (k : ℤ) (hk : ⌊a / n⌋ = k) :
    pymod a n = a - n * k := by
  rw [pymod, hk]

theorem floor_eq_zero (a : ℚ) (h0 : 0 ≤ a) (h1 : a < 1) : ⌊a⌋ = 0 :=
  Int.floor_eq_iff.mpr (by constructor <;> push_cast <;> linarith)

theorem floor_eq_neg_one (a : ℚ) (h0 : -1 ≤ a) (h1 : a < 0) : ⌊a⌋ = -1 :=
  Int.floor_eq_iff.mpr (by constructor <;> push_cast <;> linarith)

theorem floor_eq_one (a : ℚ) (h0 : 1 ≤ a) (h1 : a < 2) : ⌊a⌋ = 1 :=
  Int.floor_eq_iff.mpr (by constructor <;> push_cast <;> linarith)

theorem floor_eq_two (a : ℚ) (h0 : 2 ≤ a) (h1 : a < 3) : ⌊a⌋ = 2 :=
  Int.floor_eq_iff.mpr (by constructor <;> push_cast <;> linarith)

theorem pymod_id (a : ℚ) (h0 : 0 ≤ a) (h1 : a < 1) : pymod a 1 = a := by
  rw [pymod_eval a 1 0 (by rw [div_one]; exact floor_eq_zero a h0 h1)]
  push_cast
  ring

theorem from_hcy_eq (h C Y : ℚ) (hC0 : 0 ≤ C) (hC1 : C ≤ 1) (hY0 : 0 ≤ Y)
    (hY1 : Y ≤ 1) :
    ColorF.from_hcy h C Y =
      ⟨clamp ((ColorF.hcyBase h C).red + (Y - (ColorF.hcyBase h C).luma)) 0 1,
        clamp ((ColorF.hcyBase h C).green + (Y - (ColorF.hcyBase h C).luma)) 0 1,
        clamp ((ColorF.hcyBase h C).blue + (Y - (ColorF.hcyBase h C).luma)) 0 1⟩ := by
  simp only [ColorF.from_hcy, clamp_eq_self C 0 1 hC0 hC1,
    clamp_eq_self Y 0 1 hY0 hY1]

theorem hcyBase_eval0 (h C : ℚ) (hh0 : 0 ≤ h) (hh1 : 6 * h ≤ 1) :
    ColorF.hcyBase h C = ⟨C, C * (6 * h), 0⟩ := by
  have hid : pymod h 1 = h := pymod_id h hh0 (by linarith)
  simp only [ColorF.hcyBase, hid]
  by_cases hb : h * 6 < 1
  · rw [if_pos hb]
    have hp : pymod (h * 6) 2 = h * 6 := by
      rw [pymod_eval (h * 6) 2 0 (floor_eq_zero _ (by linarith) (by linarith))]
      push_cast; ring
    rw [hp, abs_of_nonpos (by linarith)]
    refine ColorF.ext rfl ?_ rfl
    show C * (1 - -(h * 6 - 1)) = C * (6 * h)
    ring
  · have he : h * 6 = 1 := le_antisymm (by linarith) (not_lt.mp hb)
    rw [if_neg hb, if_pos (by rw [he]; norm_num)]
    have hp : pymod (h * 6) 2 = 1 := by
      rw [pymod_eval (h * 6) 2 0 (floor_eq_zero _ (by linarith) (by linarith)), he]
      push_cast; ring
    rw [hp]
    refine ColorF.ext ?_ ?_ rfl
    · show C * (1 - |(1 : ℚ) - 1|) = C
      norm_num
    · show C = C * (6 * h)
      linear_combination (-C) * he

theorem hcyBase_eval1 (h C : ℚ) (hh0 : 1 ≤ 6 * h) (hh1 : 6 * h ≤ 2)
    (hlt : h < 1) :
    ColorF.hcyBase h C = ⟨C * (2 - 6 * h), C, 0⟩ := by
  have hid : pymod h 1 = h := pymod_id h (by linarith) hlt
  simp only [ColorF.hcyBase, hid]
  rw [if_neg (by linarith : ¬(h * 6 < 1))]
  by_cases hb : h * 6 < 2
  · rw [if_pos hb]
    have hp : pymod (h * 6) 2 = h * 6 := by
      rw [pymod_eval (h * 6) 2 0 (floor_eq_zero _ (by linarith) (by linarith))]
      push_cast; ring
    rw [hp, abs_of_nonneg (by linarith)]
    refine ColorF.ext ?_ rfl rfl
    show C * (1 - (h * 6 - 1)) = C * (2 - 6 * h)
    ring
  · have he : h * 6 = 2 := le_antisymm (by linarith) (not_lt.mp hb)
    rw [if_neg hb, if_pos (by rw [he]; norm_num)]
    have hp : pymod (h * 6) 2 = 0 := by
      rw [pymod_eval (h * 6) 2 1 (by rw [he]; norm_num), he]
      push_cast; ring
    rw [hp]
    refine ColorF.ext ?_ rfl ?_
    · show (0 : ℚ) = C * (2 - 6 * h)
      linear_combination C * he
    · show C * (1 - |(0 : ℚ) - 1|) = 0
      norm_num

theorem hcyBase_eval2 (h C : ℚ) (hh0 : 2 ≤ 6 * h) (hh1 : 6 * h ≤ 3)
    (hlt : h < 1) :
    ColorF.hcyBase h C = ⟨0, C, C * (6 * h - 2)⟩ := by
  have hid : pymod h 1 = h := pymod_id h (by linarith) hlt
  simp only [ColorF.hcyBase, hid]
  rw [if_neg (by linarith : ¬(h * 6 < 1)), if_neg (by linarith : ¬(h * 6 < 2))]
  by_cases hb : h * 6 < 3
  · rw [if_pos hb]
    have hp : pymod (h * 6) 2 = h * 6 - 2 := by
      rw [pymod_eval (h * 6) 2 1 (floor_eq_one _ (by linarith) (by linarith))]
      push_cast; ring
    rw [hp, abs_of_nonpos (by linarith)]
    refine ColorF.ext rfl rfl ?_
    show C * (1 - -(h * 6 - 2 - 1)) = C * (6 * h - 2)
    ring
  · have he : h * 6 = 3 := le_antisymm (by linarith) (not_lt.mp hb)
    rw [if_neg hb, if_pos (by rw [he]; norm_num)]
    have hp : pymod (h * 6) 2 = 1 := by
      rw [pymod_eval (h * 6) 2 1 (floor_eq_one _ (by linarith) (by linarith)), he]
      push_cast; ring
    rw [hp]
    refine ColorF.ext rfl ?_ ?_
    · show C * (1 - |(1 : ℚ) - 1|) = C
      norm_num
    · show C = C * (6 * h - 2)
      linear_combination (-C) * he

theorem hcyBase_eval3 (h C : ℚ) (hh0 : 3 ≤ 6 * h) (hh1 : 6 * h ≤ 4)
    (hlt : h < 1) :
    ColorF.hcyBase h C = ⟨0, C * (4 - 6 * h), C⟩ := by
  have hid : pymod h 1 = h := pymod_id h (by linarith) hlt
  simp only [ColorF.hcyBase, hid]
  rw [if_neg (by linarith : ¬(h * 6 < 1)), if_neg (by linarith : ¬(h * 6 < 2)),
    if_neg (by linarith : ¬(h * 6 < 3))]
  by_cases hb : h * 6 < 4
  · rw [if_pos hb]
    have hp : pymod (h * 6) 2 = h * 6 - 2 := by
      rw [pymod_eval (h * 6) 2 1 (floor_eq_one _ (by linarith) (by linarith))]
      push_cast; ring
    rw [hp, abs_of_nonneg (by linarith)]
    refine ColorF.ext rfl ?_ rfl
    show C * (1 - (h * 6 - 2 - 1)) = C * (4 - 6 * h)
    ring
  · have he : h * 6 = 4 := le_antisymm (by linarith) (not_lt.mp hb)
    rw [if_neg hb, if_pos (by rw [he]; norm_num)]
    have hp : pymod (h * 6) 2 = 0 := by
      rw [pymod_eval (h * 6) 2 2 (by rw [he]; norm_num), he]
      push_cast; ring
    rw [hp]
    refine ColorF.ext ?_ ?_ rfl
    · show C * (1 - |(0 : ℚ) - 1|) = 0
      norm_num
    · show (0 : ℚ) = C * (4 - 6 * h)
      linear_combination C * he

theorem hcyBase_eval4 (h C : ℚ) (hh0 : 4 ≤ 6 * h) (hh1 : 6 * h ≤ 5)
    (hlt : h < 1) :
    ColorF.hcyBase h C = ⟨C * (6 * h - 4), 0, C⟩ := by
  have hid : pymod h 1 = h := pymod_id h (by linarith) hlt
  simp only [ColorF.hcyBase, hid]
  rw [if_neg (by linarith : ¬(h * 6 < 1)), if_neg (by linarith : ¬(h * 6 < 2)),
    if_neg (by linarith : ¬(h * 6 < 3)), if_neg (by linarith : ¬(h * 6 < 4))]
  by_cases hb : h * 6 < 5
  · rw [if_pos hb]
    have hp : pymod (h * 6) 2 = h * 6 - 4 := by
      rw [pymod_eval (h * 6) 2 2 (floor_eq_two _ (by linarith) (by linarith))]
      push_cast; ring
    rw [hp, abs_of_nonpos (by linarith)]
    refine ColorF.ext ?_ rfl rfl
    show C * (1 - -(h * 6 - 4 - 1)) = C * (6 * h - 4)
    ring
  · have he : h * 6 = 5 := le_antisymm (by linarith) (not_lt.mp hb)
    rw [if_neg hb]
    have hp : pymod (h * 6) 2 = 1 := by
      rw [pymod_eval (h * 6) 2 2 (floor_eq_two _ (by linarith) (by linarith)), he]
      push_cast; ring
    rw [hp]
    refine ColorF.ext ?_ rfl ?_
    · show C = C * (6 * h - 4)
      linear_combination (-C) * he
    · show C * (1 - |(1 : ℚ) - 1|) = C
      norm_num

theorem hcyBase_eval5 (h C : ℚ) (hh0 : 5 ≤ 6 * h) (hlt : h < 1) :
    ColorF.hcyBase h C = ⟨C, 0, C * (6 - 6 * h)⟩ := by
  have hid : pymod h 1 = h := pymod_id h (by linarith) hlt
  simp only [ColorF.hcyBase, hid]
  rw [if_neg (by linarith : ¬(h * 6 < 1)), if_neg (by linarith : ¬(h * 6 < 2)),
    if_neg (by linarith : ¬(h * 6 < 3)), if_neg (by linarith : ¬(h * 6 < 4)),
    if_neg (by linarith : ¬(h * 6 < 5))]
  have hp : pymod (h * 6) 2 = h * 6 - 4 := by
    rw [pymod_eval (h * 6) 2 2 (floor_eq_two _ (by linarith) (by linarith))]
    push_cast; ring
  rw [hp, abs_of_nonneg (by linarith)]
  refine ColorF.ext rfl rfl ?_
  show C * (1 - (h * 6 - 4 - 1)) = C * (6 - 6 * h)
  ring


theorem hcy_roundtrip_gray (r g b : ℚ) (h0r : 0 ≤ r) (h1r : r ≤ 1)
    (h0g : 0 ≤ g) (h1g : g ≤ 1) (h0b : 0 ≤ b) (h1b : b ≤ 1)
    (hch : ColorF.chroma (⟨r, g, b⟩ : ColorF ℚ) = 0) :
    ColorF.from_hcy (ColorF.hue ⟨r, g, b⟩) (ColorF.chroma ⟨r, g, b⟩)
      (ColorF.luma ⟨r, g, b⟩) = ⟨r, g, b⟩ := by
  have hY0 : 0 ≤ ColorF.luma (⟨r, g, b⟩ : ColorF ℚ) := by
    simp only [ColorF.luma]; linarith
  have hY1 : ColorF.luma (⟨r, g, b⟩ : ColorF ℚ) ≤ 1 := by
    simp only [ColorF.luma]; linarith
  have hcm : max r (max g b) = min r (min g b) := by
    have h := hch
    simp only [ColorF.chroma, ColorF.cmax, ColorF.cmin] at h
    linarith
  have hr1 : r ≤ max r (max g b) := le_max_left _ _
  have hg1 : g ≤ max r (max g b) := le_trans (le_max_left _ _) (le_max_right _ _)
  have hb1 : b ≤ max r (max g b) := le_trans (le_max_right _ _) (le_max_right _ _)
  have hr2 : min r (min g b) ≤ r := min_le_left _ _
  have hg2 : min r (min g b) ≤ g := le_trans (min_le_right _ _) (min_le_left _ _)
  have hb2 : min r (min g b) ≤ b := le_trans (min_le_right _ _) (min_le_right _ _)
  have hrg : r = g := by linarith
  have hrb : r = b := by linarith
  have hhue : ColorF.hue (⟨r, g, b⟩ : ColorF ℚ) = 0 := by
    rw [ColorF.hue, if_pos hch]
  rw [hhue, hch,
    from_hcy_eq 0 0 (ColorF.luma ⟨r, g, b⟩) le_rfl zero_le_one hY0 hY1,
    hcyBase_eval0 0 0 le_rfl (by norm_num)]
  have hL0 : ColorF.luma (⟨0, 0 * (6 * 0), 0⟩ : ColorF ℚ) = 0 := by
    simp [ColorF.luma]
  refine ColorF.ext ?_ ?_ ?_
  · show clamp (0 + (ColorF.luma ⟨r, g, b⟩ -
      ColorF.luma (⟨0, 0 * (6 * 0), 0⟩ : ColorF ℚ))) 0 1 = r
    rw [hL0, show (0 : ℚ) + (ColorF.luma ⟨r, g, b⟩ - 0) =
      ColorF.luma ⟨r, g, b⟩ by ring]
    rw [show ColorF.luma (⟨r, g, b⟩ : ColorF ℚ) = r by
      simp only [ColorF.luma]; rw [← hrg, ← hrb]; ring]
    exact clamp_eq_self r 0 1 h0r h1r
  · show clamp (0 * (6 * 0) + (ColorF.luma ⟨r, g, b⟩ -
      ColorF.luma (⟨0, 0 * (6 * 0), 0⟩ : ColorF ℚ))) 0 1 = g
    rw [hL0, show (0 : ℚ) * (6 * 0) + (ColorF.luma ⟨r, g, b⟩ - 0) =
      ColorF.luma ⟨r, g, b⟩ by ring]
    rw [show ColorF.luma (⟨r, g, b⟩ : ColorF ℚ) = g by
      simp only [ColorF.luma]; rw [← hrg, ← hrb]; ring]
    exact clamp_eq_self g 0 1 h0g h1g
  · show clamp (0 + (ColorF.luma ⟨r, g, b⟩ -
      ColorF.luma (⟨0, 0 * (6 * 0), 0⟩ : ColorF ℚ))) 0 1 = b
    rw [hL0, show (0 : ℚ) + (ColorF.luma ⟨r, g, b⟩ - 0) =
      ColorF.luma ⟨r, g, b⟩ by ring]
    rw [show ColorF.luma (⟨r, g, b⟩ : ColorF ℚ) = b by
      simp only [ColorF.luma]; rw [← hrg, ← hrb]; ring]
    exact clamp_eq_self b 0 1 h0b h1b

theorem luma_nonneg (r g b : ℚ) (h0r : 0 ≤ r) (h0g : 0 ≤ g) (h0b : 0 ≤ b) :
    0 ≤ ColorF.luma (⟨r, g, b⟩ : ColorF ℚ) := by
  simp only [ColorF.luma]; linarith

theorem luma_le_one (r g b : ℚ) (h1r : r ≤ 1) (h1g : g ≤ 1) (h1b : b ≤ 1) :
    ColorF.luma (⟨r, g, b⟩ : ColorF ℚ) ≤ 1 := by
  simp only [ColorF.luma]; linarith

theorem hcy_roundtrip_maxr_hi (r g b : ℚ) (h0r : 0 ≤ r) (h1r : r ≤ 1)
    (h0g : 0 ≤ g) (h1g : g ≤ 1) (h0b : 0 ≤ b) (h1b : b ≤ 1)
    (hch : ¬ColorF.chroma (⟨r, g, b⟩ : ColorF ℚ) = 0)
    (hR : max r (max g b) = r) (hgb : b ≤ g) :
    ColorF.from_hcy (ColorF.hue ⟨r, g, b⟩) (ColorF.chroma ⟨r, g, b⟩)
      (ColorF.luma ⟨r, g, b⟩) = ⟨r, g, b⟩ := by
  have hY0 := luma_nonneg r g b h0r h0g h0b
  have hY1 := luma_le_one r g b h1r h1g h1b
  have hgr : g ≤ r := by
    calc g ≤ max g b := le_max_left g b
    _ ≤ max r (max g b) := le_max_right r (max g b)
    _ = r := hR
  have hbr : b ≤ r := le_trans hgb hgr
  have hmin : min r (min g b) = b := by
    rw [min_eq_right hgb, min_eq_right hbr]
  have hCval : ColorF.chroma (⟨r, g, b⟩ : ColorF ℚ) = r - b := by
    simp only [ColorF.chroma, ColorF.cmax, ColorF.cmin]
    rw [hR, hmin]
  have hC : 0 < r - b := by
    rcases lt_or_eq_of_le (by linarith : (0 : ℚ) ≤ r - b) with h | h
    · exact h
    · exact absurd (hCval.trans h.symm) hch
  have hC1 : r - b ≤ 1 := by linarith
  have ht0 : 0 ≤ (g - b) / (r - b) := div_nonneg (by linarith) (le_of_lt hC)
  have ht1 : (g - b) / (r - b) ≤ 1 := (div_le_one hC).mpr (by linarith)
  have hfield : (⟨r, g, b⟩ : ColorF ℚ).cmax = (⟨r, g, b⟩ : ColorF ℚ).red := by
    simp only [ColorF.cmax]; exact hR
  have hhue : ColorF.hue (⟨r, g, b⟩ : ColorF ℚ) = (g - b) / (r - b) / 6 := by
    rw [ColorF.hue, if_neg hch, if_pos hfield]
    show pymod ((g - b) / ColorF.chroma ⟨r, g, b⟩) 6 / 6 = (g - b) / (r - b) / 6
    rw [hCval, pymod_eval _ 6 0 (floor_eq_zero _ (by linarith) (by linarith))]
    push_cast
    ring
  have h60 : 0 ≤ (g - b) / (r - b) / 6 := by linarith
  have h61 : 6 * ((g - b) / (r - b) / 6) ≤ 1 := by
    rw [show 6 * ((g - b) / (r - b) / 6) = (g - b) / (r - b) by ring]
    exact ht1
  rw [hhue, hCval,
    from_hcy_eq _ _ _ (le_of_lt hC) hC1 hY0 hY1,
    hcyBase_eval0 _ _ h60 h61,
    show (r - b) * (6 * ((g - b) / (r - b) / 6)) = g - b by
      field_simp; ring]
  have hm' : ColorF.luma (⟨r, g, b⟩ : ColorF ℚ) -
      ColorF.luma (⟨r - b, g - b, 0⟩ : ColorF ℚ) = b := by
    simp only [ColorF.luma]; ring
  rw [hm']
  refine ColorF.ext ?_ ?_ ?_
  · show clamp (r - b + b) 0 1 = r
    rw [show r - b + b = r by ring]
    exact clamp_eq_self r 0 1 h0r h1r
  · show clamp (g - b + b) 0 1 = g
    rw [show g - b + b = g by ring]
    exact clamp_eq_self g 0 1 h0g h1g
  · show clamp (0 + b) 0 1 = b
    rw [show (0 : ℚ) + b = b by ring]
    exact clamp_eq_self b 0 1 h0b h1b

theorem hcy_roundtrip_maxr_lo (r g b : ℚ) (h0r : 0 ≤ r) (h1r : r ≤ 1)
    (h0g : 0 ≤ g) (h1g : g ≤ 1) (h0b : 0 ≤ b) (h1b : b ≤ 1)
    (hch : ¬ColorF.chroma (⟨r, g, b⟩ : ColorF ℚ) = 0)
    (hR : max r (max g b) = r) (hbg : g < b) :
    ColorF.from_hcy (ColorF.hue ⟨r, g, b⟩) (ColorF.chroma ⟨r, g, b⟩)
      (ColorF.luma ⟨r, g, b⟩) = ⟨r, g, b⟩ := by
  have hY0 := luma_nonneg r g b h0r h0g h0b
  have hY1 := luma_le_one r g b h1r h1g h1b
  have hgr : g ≤ r := by
    calc g ≤ max g b := le_max_left g b
    _ ≤ max r (max g b) := le_max_right r (max g b)
    _ = r := hR
  have hbr : b ≤ r := by
    calc b ≤ max g b := le_max_right g b
    _ ≤ max r (max g b) := le_max_right r (max g b)
    _ = r := hR
  have hmin : min r (min g b) = g := by
    rw [min_eq_left (le_of_lt hbg), min_eq_right hgr]
  have hCval : ColorF.chroma (⟨r, g, b⟩ : ColorF ℚ) = r - g := by
    simp only [ColorF.chroma, ColorF.cmax, ColorF.cmin]
    rw [hR, hmin]
  have hC : 0 < r - g := by linarith
  have hC1 : r - g ≤ 1 := by linarith
  have ht_neg : (g - b) / (r - g) < 0 :=
    div_neg_of_neg_of_pos (by linarith) hC
  have ht_ge : -1 ≤ (g - b) / (r - g) := by
    rw [le_div_iff₀ hC]; linarith
  have hfield : (⟨r, g, b⟩ : ColorF ℚ).cmax = (⟨r, g, b⟩ : ColorF ℚ).red := by
    simp only [ColorF.cmax]; exact hR
  have hhue : ColorF.hue (⟨r, g, b⟩ : ColorF ℚ) =
      ((g - b) / (r - g) + 6) / 6 := by
    rw [ColorF.hue, if_neg hch, if_pos hfield]
    show pymod ((g - b) / ColorF.chroma ⟨r, g, b⟩) 6 / 6 =
      ((g - b) / (r - g) + 6) / 6
    rw [hCval,
      pymod_eval _ 6 (-1) (floor_eq_neg_one _ (by linarith) (by linarith))]
    push_cast
    ring
  have hh0 : 5 ≤ 6 * (((g - b) / (r - g) + 6) / 6) := by
    rw [show 6 * (((g - b) / (r - g) + 6) / 6) = (g - b) / (r - g) + 6 by ring]
    linarith
  have hlt : ((g - b) / (r - g) + 6) / 6 < 1 := by linarith
  rw [hhue, hCval,
    from_hcy_eq _ _ _ (le_of_lt hC) hC1 hY0 hY1,
    hcyBase_eval5 _ _ hh0 hlt,
    show (r - g) * (6 - 6 * (((g - b) / (r - g) + 6) / 6)) = b - g by
      field_simp; ring]
  have hm' : ColorF.luma (⟨r, g, b⟩ : ColorF ℚ) -
      ColorF.luma (⟨r - g, 0, b - g⟩ : ColorF ℚ) = g := by
    simp only [ColorF.luma]; ring
  rw [hm']
  refine ColorF.ext ?_ ?_ ?_
  · show clamp (r - g + g) 0 1 = r
    rw [show r - g + g = r by ring]
    exact clamp_eq_self r 0 1 h0r h1r
  · show clamp (0 + g) 0 1 = g
    rw [show (0 : ℚ) + g = g by ring]
    exact clamp_eq_self g 0 1 h0g h1g
  · show clamp (b - g + g) 0 1 = b
    rw [show b - g + g = b by ring]
    exact clamp_eq_self b 0 1 h0b h1b

theorem hcy_roundtrip_maxg_hi (r g b : ℚ) (h0r : 0 ≤ r) (h1r : r ≤ 1)
    (h0g : 0 ≤ g) (h1g : g ≤ 1) (h0b : 0 ≤ b) (h1b : b ≤ 1)
    (hch : ¬ColorF.chroma (⟨r, g, b⟩ : ColorF ℚ) = 0)
    (hnR : ¬max r (max g b) = r) (hG : max r (max g b) = g) (hrb : r ≤ b) :
    ColorF.from_hcy (ColorF.hue ⟨r, g, b⟩) (ColorF.chroma ⟨r, g, b⟩)
      (ColorF.luma ⟨r, g, b⟩) = ⟨r, g, b⟩ := by
  have hY0 := luma_nonneg r g b h0r h0g h0b
  have hY1 := luma_le_one r g b h1r h1g h1b
  have hbg : b ≤ g := by
    calc b ≤ max g b := le_max_right g b
    _ ≤ max r (max g b) := le_max_right r (max g b)
    _ = g := hG
  have hrg' : r ≤ g := hG ▸ le_max_left r (max g b)
  have hrg : r < g := by
    rcases lt_or_eq_of_le hrg' with h | h
    · exact h
    · exact absurd (hG.trans h.symm) hnR
  have hmin : min r (min g b) = r := by
    rw [min_eq_right hbg, min_eq_left hrb]
  have hCval : ColorF.chroma (⟨r, g, b⟩ : ColorF ℚ) = g - r := by
    simp only [ColorF.chroma, ColorF.cmax, ColorF.cmin]
    rw [hG, hmin]
  have hC : 0 < g - r := by linarith
  have hC1 : g - r ≤ 1 := by linarith
  have ht0 : 0 ≤ (b - r) / (g - r) := div_nonneg (by linarith) (le_of_lt hC)
  have ht1 : (b - r) / (g - r) ≤ 1 := (div_le_one hC).mpr (by linarith)
  have hfne : ¬((⟨r, g, b⟩ : ColorF ℚ).cmax = (⟨r, g, b⟩ : ColorF ℚ).red) := by
    simp only [ColorF.cmax]; exact hnR
  have hfG : (⟨r, g, b⟩ : ColorF ℚ).cmax = (⟨r, g, b⟩ : ColorF ℚ).green := by
    simp only [ColorF.cmax]; exact hG
  have hhue : ColorF.hue (⟨r, g, b⟩ : ColorF ℚ) =
      ((b - r) / (g - r) + 2) / 6 := by
    rw [ColorF.hue, if_neg hch, if_neg hfne, if_pos hfG]
    show ((b - r) / ColorF.chroma ⟨r, g, b⟩ + 2) / 6 =
      ((b - r) / (g - r) + 2) / 6
    rw [hCval]
  have hh0 : 2 ≤ 6 * (((b - r) / (g - r) + 2) / 6) := by
    rw [show 6 * (((b - r) / (g - r) + 2) / 6) = (b - r) / (g - r) + 2 by ring]
    linarith
  have hh1 : 6 * (((b - r) / (g - r) + 2) / 6) ≤ 3 := by
    rw [show 6 * (((b - r) / (g - r) + 2) / 6) = (b - r) / (g - r) + 2 by ring]
    linarith
  have hlt : ((b - r) / (g - r) + 2) / 6 < 1 := by linarith
  rw [hhue, hCval,
    from_hcy_eq _ _ _ (le_of_lt hC) hC1 hY0 hY1,
    hcyBase_eval2 _ _ hh0 hh1 hlt,
    show (g - r) * (6 * (((b - r) / (g - r) + 2) / 6) - 2) = b - r by
      field_simp; ring]
  have hm' : ColorF.luma (⟨r, g, b⟩ : ColorF ℚ) -
      ColorF.luma (⟨0, g - r, b - r⟩ : ColorF ℚ) = r := by
    simp only [ColorF.luma]; ring
  rw [hm']
  refine ColorF.ext ?_ ?_ ?_
  · show clamp (0 + r) 0 1 = r
    rw [show (0 : ℚ) + r = r by ring]
    exact clamp_eq_self r 0 1 h0r h1r
  · show clamp (g - r + r) 0 1 = g
    rw [show g - r + r = g by ring]
    exact clamp_eq_self g 0 1 h0g h1g
  · show clamp (b - r + r) 0 1 = b
    rw [show b - r + r = b by ring]
    exact clamp_eq_self b 0 1 h0b h1b

theorem hcy_roundtrip_maxg_lo (r g b : ℚ) (h0r : 0 ≤ r) (h1r : r ≤ 1)
    (h0g : 0 ≤ g) (h1g : g ≤ 1) (h0b : 0 ≤ b) (h1b : b ≤ 1)
    (hch : ¬ColorF.chroma (⟨r, g, b⟩ : ColorF ℚ) = 0)
    (hnR : ¬max r (max g b) = r) (hG : max r (max g b) = g) (hbr : b < r) :
    ColorF.from_hcy (ColorF.hue ⟨r, g, b⟩) (ColorF.chroma ⟨r, g, b⟩)
      (ColorF.luma ⟨r, g, b⟩) = ⟨r, g, b⟩ := by
  have hY0 := luma_nonneg r g b h0r h0g h0b
  have hY1 := luma_le_one r g b h1r h1g h1b
  have hrg' : r ≤ g := hG ▸ le_max_left r (max g b)
  have hrg : r < g := by
    rcases lt_or_eq_of_le hrg' with h | h
    · exact h
    · exact absurd (hG.trans h.symm) hnR
  have hbg : b < g := lt_trans hbr hrg
  have hmin : min r (min g b) = b := by
    rw [min_eq_right (le_of_lt hbg), min_eq_right (le_of_lt hbr)]
  have hCval : ColorF.chroma (⟨r, g, b⟩ : ColorF ℚ) = g - b := by
    simp only [ColorF.chroma, ColorF.cmax, ColorF.cmin]
    rw [hG, hmin]
  have hC : 0 < g - b := by linarith
  have hC1 : g - b ≤ 1 := by linarith
  have ht_neg : (b - r) / (g - b) < 0 :=
    div_neg_of_neg_of_pos (by linarith) hC
  have ht_gt : -1 < (b - r) / (g - b) := by
    rw [lt_div_iff₀ hC]; linarith
  have hfne : ¬((⟨r, g, b⟩ : ColorF ℚ).cmax = (⟨r, g, b⟩ : ColorF ℚ).red) := by
    simp only [ColorF.cmax]; exact hnR
  have hfG : (⟨r, g, b⟩ : ColorF ℚ).cmax = (⟨r, g, b⟩ : ColorF ℚ).green := by
    simp only [ColorF.cmax]; exact hG
  have hhue : ColorF.hue (⟨r, g, b⟩ : ColorF ℚ) =
      ((b - r) / (g - b) + 2) / 6 := by
    rw [ColorF.hue, if_neg hch, if_neg hfne, if_pos hfG]
    show ((b - r) / ColorF.chroma ⟨r, g, b⟩ + 2) / 6 =
      ((b - r) / (g - b) + 2) / 6
    rw [hCval]
  have hh0 : 1 ≤ 6 * (((b - r) / (g - b) + 2) / 6) := by
    rw [show 6 * (((b - r) / (g - b) + 2) / 6) = (b - r) / (g - b) + 2 by ring]
    linarith
  have hh1 : 6 * (((b - r) / (g - b) + 2) / 6) ≤ 2 := by
    rw [show 6 * (((b - r) / (g - b) + 2) / 6) = (b - r) / (g - b) + 2 by ring]
    linarith
  have hlt : ((b - r) / (g - b) + 2) / 6 < 1 := by linarith
  rw [hhue, hCval,
    from_hcy_eq _ _ _ (le_of_lt hC) hC1 hY0 hY1,
    hcyBase_eval1 _ _ hh0 hh1 hlt,
    show (g - b) * (2 - 6 * (((b - r) / (g - b) + 2) / 6)) = r - b by
      field_simp; ring]
  have hm' : ColorF.luma (⟨r, g, b⟩ : ColorF ℚ) -
      ColorF.luma (⟨r - b, g - b, 0⟩ : ColorF ℚ) = b := by
    simp only [ColorF.luma]; ring
  rw [hm']
  refine ColorF.ext ?_ ?_ ?_
  · show clamp (r - b + b) 0 1 = r
    rw [show r - b + b = r by ring]
    exact clamp_eq_self r 0 1 h0r h1r
  · show clamp (g - b + b) 0 1 = g
    rw [show g - b + b = g by ring]
    exact clamp_eq_self g 0 1 h0g h1g
  · show clamp (0 + b) 0 1 = b
    rw [show (0 : ℚ) + b = b by ring]
    exact clamp_eq_self b 0 1 h0b h1b

theorem hcy_roundtrip_maxb_hi (r g b : ℚ) (h0r : 0 ≤ r) (h1r : r ≤ 1)
    (h0g : 0 ≤ g) (h1g : g ≤ 1) (h0b : 0 ≤ b) (h1b : b ≤ 1)
    (hch : ¬ColorF.chroma (⟨r, g, b⟩ : ColorF ℚ) = 0)
    (hnR : ¬max r (max g b) = r) (hnG : ¬max r (max g b) = g) (hgr : g ≤ r) :
    ColorF.from_hcy (ColorF.hue ⟨r, g, b⟩) (ColorF.chroma ⟨r, g, b⟩)
      (ColorF.luma ⟨r, g, b⟩) = ⟨r, g, b⟩ := by
  have hY0 := luma_nonneg r g b h0r h0g h0b
  have hY1 := luma_le_one r g b h1r h1g h1b
  have hB : max r (max g b) = b := by
    rcases max_choice r (max g b) with h | h
    · exact absurd h hnR
    · rcases max_choice g b with h2 | h2
      · exact absurd (h.trans h2) hnG
      · exact h.trans h2
  have hrb' : r ≤ b := hB ▸ le_max_left r (max g b)
  have hrb : r < b := by
    rcases lt_or_eq_of_le hrb' with h | h
    · exact h
    · exact absurd (hB.trans h.symm) hnR
  have hgb : g < b := lt_of_le_of_lt hgr hrb
  have hmin : min r (min g b) = g := by
    rw [min_eq_left (le_of_lt hgb), min_eq_right hgr]
  have hCval : ColorF.chroma (⟨r, g, b⟩ : ColorF ℚ) = b - g := by
    simp only [ColorF.chroma, ColorF.cmax, ColorF.cmin]
    rw [hB, hmin]
  have hC : 0 < b - g := by linarith
  have hC1 : b - g ≤ 1 := by linarith
  have ht0 : 0 ≤ (r - g) / (b - g) := div_nonneg (by linarith) (le_of_lt hC)
  have ht1 : (r - g) / (b - g) < 1 := (div_lt_one hC).mpr (by linarith)
  have hfne : ¬((⟨r, g, b⟩ : ColorF ℚ).cmax = (⟨r, g, b⟩ : ColorF ℚ).red) := by
    simp only [ColorF.cmax]; exact hnR
  have hfnG : ¬((⟨r, g, b⟩ : ColorF ℚ).cmax = (⟨r, g, b⟩ : ColorF ℚ).green) := by
    simp only [ColorF.cmax]; exact hnG
  have hhue : ColorF.hue (⟨r, g, b⟩ : ColorF ℚ) =
      ((r - g) / (b - g) + 4) / 6 := by
    rw [ColorF.hue, if_neg hch, if_neg hfne, if_neg hfnG]
    show ((r - g) / ColorF.chroma ⟨r, g, b⟩ + 4) / 6 =
      ((r - g) / (b - g) + 4) / 6
    rw [hCval]
  have hh0 : 4 ≤ 6 * (((r - g) / (b - g) + 4) / 6) := by
    rw [show 6 * (((r - g) / (b - g) + 4) / 6) = (r - g) / (b - g) + 4 by ring]
    linarith
  have hh1 : 6 * (((r - g) / (b - g) + 4) / 6) ≤ 5 := by
    rw [show 6 * (((r - g) / (b - g) + 4) / 6) = (r - g) / (b - g) + 4 by ring]
    linarith
  have hlt : ((r - g) / (b - g) + 4) / 6 < 1 := by linarith
  rw [hhue, hCval,
    from_hcy_eq _ _ _ (le_of_lt hC) hC1 hY0 hY1,
    hcyBase_eval4 _ _ hh0 hh1 hlt,
    show (b - g) * (6 * (((r - g) / (b - g) + 4) / 6) - 4) = r - g by
      field_simp; ring]
  have hm' : ColorF.luma (⟨r, g, b⟩ : ColorF ℚ) -
      ColorF.luma (⟨r - g, 0, b - g⟩ : ColorF ℚ) = g := by
    simp only [ColorF.luma]; ring
  rw [hm']
  refine ColorF.ext ?_ ?_ ?_
  · show clamp (r - g + g) 0 1 = r
    rw [show r - g + g = r by ring]
    exact clamp_eq_self r 0 1 h0r h1r
  · show clamp (0 + g) 0 1 = g
    rw [show (0 : ℚ) + g = g by ring]
    exact clamp_eq_self g 0 1 h0g h1g
  · show clamp (b - g + g) 0 1 = b
    rw [show b - g + g = b by ring]
    exact clamp_eq_self b 0 1 h0b h1b

theorem hcy_roundtrip_maxb_lo (r g b : ℚ) (h0r : 0 ≤ r) (h1r : r ≤ 1)
    (h0g : 0 ≤ g) (h1g : g ≤ 1) (h0b : 0 ≤ b) (h1b : b ≤ 1)
    (hch : ¬ColorF.chroma (⟨r, g, b⟩ : ColorF ℚ) = 0)
    (hnR : ¬max r (max g b) = r) (hnG : ¬max r (max g b) = g) (hrg : r < g) :
    ColorF.from_hcy (ColorF.hue ⟨r, g, b⟩) (ColorF.chroma ⟨r, g, b⟩)
      (ColorF.luma ⟨r, g, b⟩) = ⟨r, g, b⟩ := by
  have hY0 := luma_nonneg r g b h0r h0g h0b
  have hY1 := luma_le_one r g b h1r h1g h1b
  have hB : max r (max g b) = b := by
    rcases max_choice r (max g b) with h | h
    · exact absurd h hnR
    · rcases max_choice g b with h2 | h2
      · exact absurd (h.trans h2) hnG
      · exact h.trans h2
  have hgb' : g ≤ b := by
    calc g ≤ max g b := le_max_left g b
    _ ≤ max r (max g b) := le_max_right r (max g b)
    _ = b := hB
  have hgb : g < b := by
    rcases lt_or_eq_of_le hgb' with h | h
    · exact h
    · exact absurd (hB.trans h.symm) hnG
  have hrb : r < b := lt_trans hrg hgb
  have hmin : min r (min g b) = r := by
    rw [min_eq_left (le_of_lt hgb), min_eq_left (le_of_lt hrg)]
  have hCval : ColorF.chroma (⟨r, g, b⟩ : ColorF ℚ) = b - r := by
    simp only [ColorF.chroma, ColorF.cmax, ColorF.cmin]
    rw [hB, hmin]
  have hC : 0 < b - r := by linarith
  have hC1 : b - r ≤ 1 := by linarith
  have ht_neg : (r - g) / (b - r) < 0 :=
    div_neg_of_neg_of_pos (by linarith) hC
  have ht_gt : -1 < (r - g) / (b - r) := by
    rw [lt_div_iff₀ hC]; linarith
  have hfne : ¬((⟨r, g, b⟩ : ColorF ℚ).cmax = (⟨r, g, b⟩ : ColorF ℚ).red) := by
    simp only [ColorF.cmax]; exact hnR
  have hfnG : ¬((⟨r, g, b⟩ : ColorF ℚ).cmax = (⟨r, g, b⟩ : ColorF ℚ).green) := by
    simp only [ColorF.cmax]; exact hnG
  have hhue : ColorF.hue (⟨r, g, b⟩ : ColorF ℚ) =
      ((r - g) / (b - r) + 4) / 6 := by
    rw [ColorF.hue, if_neg hch, if_neg hfne, if_neg hfnG]
    show ((r - g) / ColorF.chroma ⟨r, g, b⟩ + 4) / 6 =
      ((r - g) / (b - r) + 4) / 6
    rw [hCval]
  have hh0 : 3 ≤ 6 * (((r - g) / (b - r) + 4) / 6) := by
    rw [show 6 * (((r - g) / (b - r) + 4) / 6) = (r - g) / (b - r) + 4 by ring]
    linarith
  have hh1 : 6 * (((r - g) / (b - r) + 4) / 6) ≤ 4 := by
    rw [show 6 * (((r - g) / (b - r) + 4) / 6) = (r - g) / (b - r) + 4 by ring]
    linarith
  have hlt : ((r - g) / (b - r) + 4) / 6 < 1 := by linarith
  rw [hhue, hCval,
    from_hcy_eq _ _ _ (le_of_lt hC) hC1 hY0 hY1,
    hcyBase_eval3 _ _ hh0 hh1 hlt,
    show (b - r) * (4 - 6 * (((r - g) / (b - r) + 4) / 6)) = g - r by
      field_simp; ring]
  have hm' : ColorF.luma (⟨r, g, b⟩ : ColorF ℚ) -
      ColorF.luma (⟨0, g - r, b - r⟩ : ColorF ℚ) = r := by
    simp only [ColorF.luma]; ring
  rw [hm']
  refine ColorF.ext ?_ ?_ ?_
  · show clamp (0 + r) 0 1 = r
    rw [show (0 : ℚ) + r = r by ring]
    exact clamp_eq_self r 0 1 h0r h1r
  · show clamp (g - r + r) 0 1 = g
    rw [show g - r + r = g by ring]
    exact clamp_eq_self g 0 1 h0g h1g
  · show clamp (b - r + r) 0 1 = b
    rw [show b - r + r = b by ring]
    exact clamp_eq_self b 0 1 h0b h1b

/-- The load-bearing exactness lemma: for channels in the unit interval, the
HCY projection followed by `from_hcy` reconstructs the color exactly (no
quantization slack is even needed). -/
theorem hcy_roundtrip (r g b : ℚ) (h0r : 0 ≤ r) (h1r : r ≤ 1) (h0g : 0 ≤ g)
    (h1g : g ≤ 1) (h0b : 0 ≤ b) (h1b : b ≤ 1) :
    ColorF.from_hcy (ColorF.hue ⟨r, g, b⟩) (ColorF.chroma ⟨r, g, b⟩)
      (ColorF.luma ⟨r, g, b⟩) = ⟨r, g, b⟩ := by
  by_cases hch : ColorF.chroma (⟨r, g, b⟩ : ColorF ℚ) = 0
  · exact hcy_roundtrip_gray r g b h0r h1r h0g h1g h0b h1b hch
  · by_cases hR : max r (max g b) = r
    · rcases le_or_lt b g with hgb | hbg
      · exact hcy_roundtrip_maxr_hi r g b h0r h1r h0g h1g h0b h1b hch hR hgb
      · exact hcy_roundtrip_maxr_lo r g b h0r h1r h0g h1g h0b h1b hch hR hbg
    · by_cases hG : max r (max g b) = g
      · rcases le_or_lt r b with hrb | hbr
        · exact hcy_roundtrip_maxg_hi r g b h0r h1r h0g h1g h0b h1b hch hR hG hrb
        · exact hcy_roundtrip_maxg_lo r g b h0r h1r h0g h1g h0b h1b hch hR hG hbr
      · rcases le_or_lt g r with hgr | hrg
        · exact hcy_roundtrip_maxb_hi r g b h0r h1r h0g h1g h0b h1b hch hR hG hgr
        · exact hcy_roundtrip_maxb_lo r g b h0r h1r h0g h1g h0b h1b hch hR hG hrg

theorem quantize_div31 (i : ℕ) (h : i ≤ 31) :
    quantizeChannel ((i : ℚ) / 31) = i := by
  rw [quantizeChannel, show ((i : ℚ) / 31) * 31 = (i : ℚ) by field_simp,
    round_natCast,
    clamp_eq_self (i : ℤ) 0 31 (Int.ofNat_nonneg i) (by exact_mod_cast h)]
  exact Int.toNat_natCast i

/-- Claim C1: for every one of the 32768 representable packed colors, the
conversion to a `ColorF` followed by `from_hcy` on its derived hue, chroma
and luma and re-quantization to 5 bits per channel is bit-identical to the
original packed color. -/
theorem packed_hcy_roundtrip (v : ℕ) (hv : v < 32768) :
    SnesColor.from_color_f
      (ColorF.from_hcy (SnesColor.to_color_f (K := ℚ) ⟨v⟩).hue
        (SnesColor.to_color_f (K := ℚ) ⟨v⟩).chroma
        (SnesColor.to_color_f (K := ℚ) ⟨v⟩).luma) = ⟨v⟩ := by
  have hr : v % 32 ≤ 31 := by omega
  have hg : v / 32 % 32 ≤ 31 := by omega
  have hb : v / 1024 % 32 ≤ 31 := by omega
  have hcf : SnesColor.to_color_f (K := ℚ) ⟨v⟩ =
      ⟨((v % 32 : ℕ) : ℚ) / 31, ((v / 32 % 32 : ℕ) : ℚ) / 31,
        ((v / 1024 % 32 : ℕ) : ℚ) / 31⟩ := rfl
  have bound : ∀ i : ℕ, i ≤ 31 →
      0 ≤ ((i : ℕ) : ℚ) / 31 ∧ ((i : ℕ) : ℚ) / 31 ≤ 1 := by
    intro i hi
    constructor
    · positivity
    · rw [div_le_one (by norm_num : (0 : ℚ) < 31)]
      exact_mod_cast hi
  rw [hcf,
    hcy_roundtrip _ _ _ (bound _ hr).1 (bound _ hr).2 (bound _ hg).1
      (bound _ hg).2 (bound _ hb).1 (bound _ hb).2]
  show SnesColor.from_rgb (quantizeChannel (((v % 32 : ℕ) : ℚ) / 31))
      (quantizeChannel (((v / 32 % 32 : ℕ) : ℚ) / 31))
      (quantizeChannel (((v / 1024 % 32 : ℕ) : ℚ) / 31)) = ⟨v⟩
  rw [quantize_div31 _ hr, quantize_div31 _ hg, quantize_div31 _ hb,
    SnesColor.from_rgb]
  simp only [SnesColor.mk.injEq]
  omega

/-- Witness for C1 at the packed color `0x2C5F`. -/
theorem packed_hcy_roundtrip_witness :
    SnesColor.from_color_f
      (ColorF.from_hcy (SnesColor.to_color_f (K := ℚ) ⟨0x2C5F⟩).hue
        (SnesColor.to_color_f (K := ℚ) ⟨0x2C5F⟩).chroma
        (SnesColor.to_color_f (K := ℚ) ⟨0x2C5F⟩).luma) = ⟨0x2C5F⟩ :=
  packed_hcy_roundtrip 0x2C5F (by decide)
